import Mathlib

/-!
# Rotating pyramid demo (`src/main.cpp`): embedding and verified properties

The program is one C++ translation unit: a GLFW/OpenGL render loop with an orbit camera
driven by polled keys, a static pyramid mesh and a procedural 4x4 checker texture.

Modelling decisions.

* `float` is IEEE-754 binary32 with round-to-nearest-even, every operation rounded on its
  own.  A value is `nan`, a signed infinity, or a finite rational; the sign of zero is not
  tracked (no operation of the program can observe it).
* `std::sin` / `std::cos` are library code: they are taken as a parameter (`Libm`).
* GLFW and OpenGL are library code: the calls the program issues are recorded in a trace,
  and what the program reads from GLFW (clock, key state, close requests handled by
  `glfwPollEvents`) is an input of each loop iteration.
* `glm::rotate` and `glm::lookAt` are recorded by their arguments.
-/

namespace Pyramid

/-! ## IEEE-754 binary32 -/

/-- A binary32 value: not-a-number, an infinity (`neg = true` for minus infinity) or a
finite rational. -/
inductive F32 where
  | nan : F32
  | inf (neg : Bool) : F32
  | fin (q : ℚ) : F32
  deriving DecidableEq

namespace F32

/-- Nearest integer, ties to the even one. -/
def roundEven (x : ℚ) : ℤ :=
  if x - ⌊x⌋ < 1/2 then ⌊x⌋
  else if 1/2 < x - ⌊x⌋ then ⌊x⌋ + 1
  else if ⌊x⌋ % 2 = 0 then ⌊x⌋ else ⌊x⌋ + 1

/-- Exponent of the unit in the last place used to round `q`: 24 significant bits, and never
below the subnormal grid `2^-149`. -/
def expOf (q : ℚ) : ℤ := max (Int.log 2 |q| - 23) (-149)

/-- Round to nearest-even on the binary32 grid, exponent unbounded above. -/
def roundFin (q : ℚ) : ℚ := (roundEven (q / 2 ^ expOf q) : ℚ) * 2 ^ expOf q

/-- Largest finite binary32 value, `(2^24 - 1) * 2^104`. -/
def maxFinite : ℚ := (2 ^ 24 - 1) * 2 ^ 104

/-- Rounding of an exact real result to binary32, overflowing to an infinity. -/
def round (q : ℚ) : F32 :=
  if maxFinite < roundFin q then inf false
  else if roundFin q < -maxFinite then inf true
  else fin (roundFin q)

/-- A decimal literal with suffix `f`: the nearest binary32 value. -/
def lit (q : ℚ) : F32 := round q

/-- Unary minus. -/
def neg : F32 → F32
  | nan => nan
  | inf b => inf (!b)
  | fin q => fin (-q)

/-- Binary32 addition. -/
def add : F32 → F32 → F32
  | nan, _ => nan
  | _, nan => nan
  | inf a, inf b => if a = b then inf a else nan
  | inf a, fin _ => inf a
  | fin _, inf b => inf b
  | fin a, fin b => round (a + b)

/-- Binary32 subtraction. -/
def sub (a b : F32) : F32 := add a (neg b)

/-- Binary32 multiplication. -/
def mul : F32 → F32 → F32
  | nan, _ => nan
  | _, nan => nan
  | inf a, inf b => inf (xor a b)
  | inf a, fin q => if q = 0 then nan else inf (xor a (decide (q < 0)))
  | fin q, inf b => if q = 0 then nan else inf (xor (decide (q < 0)) b)
  | fin a, fin b => round (a * b)

/-- The comparison `a < b`; false as soon as one side is `nan`. -/
def lt : F32 → F32 → Bool
  | nan, _ => false
  | _, nan => false
  | inf a, inf b => a && !b
  | inf a, fin _ => a
  | fin _, inf b => !b
  | fin a, fin b => decide (a < b)

/-- The comparison `a <= b`; false as soon as one side is `nan`. -/
def le : F32 → F32 → Bool
  | nan, _ => false
  | _, nan => false
  | inf a, inf b => a || !b
  | inf a, fin _ => a
  | fin _, inf b => !b
  | fin a, fin b => decide (a ≤ b)

/-- The function `std::max(a, b)`, which is `(a < b) ? b : a`. -/
def stdMax (a b : F32) : F32 := if lt a b then b else a

/-- The function `std::min(a, b)`, which is `(b < a) ? b : a`. -/
def stdMin (a b : F32) : F32 := if lt b a then b else a

end F32

/-- The two `<cmath>` functions the render loop calls, on `float`. -/
structure Libm where
  sin : F32 → F32
  cos : F32 → F32

/-- A small stand-in for the math library (Taylor polynomials, rounded once), used to
instantiate statements that hold for every `Libm`. -/
def taylorLibm : Libm where
  sin := fun x => match x with
    | F32.fin q => F32.round (q - q ^ 3 / 6 + q ^ 5 / 120)
    | _ => F32.nan
  cos := fun x => match x with
    | F32.fin q => F32.round (1 - q ^ 2 / 2 + q ^ 4 / 24)
    | _ => F32.nan

/-! ## Input handler (`processInput`) -/

/-- Key state as `glfwGetKey` reports it during one call of `processInput`
(`true` is `GLFW_PRESS`). -/
structure Keys where
  keyA : Bool
  keyLeft : Bool
  keyD : Bool
  keyRight : Bool
  keyW : Bool
  keyUp : Bool
  keyS : Bool
  keyDown : Bool
  keyEscape : Bool
  deriving DecidableEq

/-- No key held. -/
def noKeys : Keys := ⟨false, false, false, false, false, false, false, false, false⟩

/-- What `processInput` reads and writes: the three `float&` arguments and the close flag of
the window. -/
structure OrbitState where
  camAngle : F32
  radius : F32
  camPos : F32
  shouldClose : Bool
  deriving DecidableEq

/-- The function `processInput` (main.cpp:272-296): five independent `if` statements run in
order. -/
def processInput (keys : Keys) (s : OrbitState) (dt : F32) : OrbitState :=
  let camAngle1 :=
    if keys.keyA || keys.keyLeft then F32.sub s.camAngle (F32.mul (F32.lit (3/2)) dt)
    else s.camAngle
  let camAngle2 :=
    if keys.keyD || keys.keyRight then F32.add camAngle1 (F32.mul (F32.lit (3/2)) dt)
    else camAngle1
  let radius1 :=
    if keys.keyW || keys.keyUp then
      F32.stdMax (F32.lit (1/2)) (F32.sub s.radius (F32.mul (F32.lit (3/2)) dt))
    else s.radius
  let radius2 :=
    if keys.keyS || keys.keyDown then
      F32.stdMin (F32.lit 10) (F32.add radius1 (F32.mul (F32.lit (3/2)) dt))
    else radius1
  let shouldClose := if keys.keyEscape then true else s.shouldClose
  { camAngle := camAngle2, radius := radius2, camPos := s.camPos, shouldClose := shouldClose }

/-- The values `main` gives the camera before the loop (main.cpp:202-204), window open. -/
def initialOrbit : OrbitState :=
  { camAngle := F32.lit 0, radius := F32.lit 3, camPos := F32.lit 1, shouldClose := false }

/-- A sequence of `processInput` calls, each with its own key state and delta time. -/
def runInput (frames : List (Keys × F32)) (s : OrbitState) : OrbitState :=
  frames.foldl (fun st f => processInput f.1 st f.2) s

/-! ## Static mesh (main.cpp:101-139) -/

/-- The array `vertices`: position, colour, texture coordinate per vertex. -/
def vertices : List F32 :=
  [ F32.lit (-1/2), F32.lit (-1/2), F32.lit (-1/2),  F32.lit 1, F32.lit 0, F32.lit 0,
      F32.lit 0, F32.lit 0,
    F32.lit (1/2), F32.lit (-1/2), F32.lit (-1/2),  F32.lit 0, F32.lit 1, F32.lit 0,
      F32.lit 1, F32.lit 0,
    F32.lit (1/2), F32.lit (-1/2), F32.lit (1/2),  F32.lit 0, F32.lit 0, F32.lit 1,
      F32.lit 1, F32.lit 1,
    F32.lit (-1/2), F32.lit (-1/2), F32.lit (1/2),  F32.lit 1, F32.lit 1, F32.lit 0,
      F32.lit 0, F32.lit 1,
    F32.lit 0, F32.lit (1/2), F32.lit 0,  F32.lit 1, F32.lit 0, F32.lit 1,
      F32.lit (1/2), F32.lit 1 ]

/-- The array `triIndices`. -/
def triIndices : List Nat :=
  [0, 1, 4,  1, 2, 4,  2, 3, 4,  3, 0, 4,  0, 1, 2,  2, 3, 0]

/-- The array `lineIndices`. -/
def lineIndices : List Nat :=
  [0, 1,  1, 2,  2, 3,  3, 0,  0, 4,  1, 4,  2, 4,  3, 4]

/-- Result of `sizeof(float)`; `GLfloat` is a 32-bit type. -/
def sizeofFloat : Nat := 4

/-- Result of `sizeof(unsigned int)`. -/
def sizeofUnsignedInt : Nat := 4

/-- Floats per vertex: the stride `8 * sizeof(float)` of the three attribute pointers. -/
def floatsPerVertex : Nat := 8

/-- Result of `sizeof(vertices)`. -/
def sizeofVertices : Nat := vertices.length * sizeofFloat

/-- Result of `sizeof(triIndices)`. -/
def sizeofTriIndices : Nat := triIndices.length * sizeofUnsignedInt

/-- Result of `sizeof(lineIndices)`. -/
def sizeofLineIndices : Nat := lineIndices.length * sizeofUnsignedInt

/-- The vertex an index selects under the stride of the attribute pointers: the
`floatsPerVertex` floats from `i * floatsPerVertex`, or nothing when that range is not
inside `vertices`. -/
def vertexAt (i : Nat) : Option (List F32) :=
  if (i + 1) * floatsPerVertex ≤ vertices.length then
    some ((vertices.drop (i * floatsPerVertex)).take floatsPerVertex)
  else none

/-! ## Procedural texture (`createCheckerTexture`, main.cpp:342-359) -/

/-- The constant `texWidth`. -/
def texWidth : Nat := 4

/-- The constant `texHeight`. -/
def texHeight : Nat := 4

/-- Conversion of an `int` to `unsigned char`. -/
def toByte (n : Nat) : Nat := n % 256

/-- Body of the inner loop: the three stores for pixel `(x, y)`.  A cell of `data` is `none`
while it is uninitialised. -/
def writePixel (data : List (Option Nat)) (x y : Nat) : List (Option Nat) :=
  let index := (y * texWidth + x) * 3
  let even := (x + y) % 2 == 0
  let d0 := data.set (index + 0) (some (toByte (if even then 255 else 50)))
  let d1 := d0.set (index + 1) (some (toByte (if even then 255 else 50)))
  d1.set (index + 2) (some (toByte (if even then 255 else 200)))

/-- The buffer `data` after the two nested loops of `createCheckerTexture`. -/
def createCheckerTexture : List (Option Nat) :=
  (List.range texHeight).foldl
    (fun data y => (List.range texWidth).foldl (fun d x => writePixel d x y) data)
    (List.replicate (texWidth * texHeight * 3) none)

/-- The three bytes of pixel `(x, y)` as `glTexImage2D` reads them from a tightly packed RGB
buffer; nothing when one of them is outside the buffer or uninitialised. -/
def pixelAt (data : List (Option Nat)) (x y : Nat) : Option (Nat × Nat × Nat) :=
  let index := (y * texWidth + x) * 3
  match data[index]?, data[index + 1]?, data[index + 2]? with
  | some (some r), some (some g), some (some b) => some (r, g, b)
  | _, _, _ => none

/-! ## Render loop (main.cpp:141-270) -/

/-- The two shader programs. -/
inductive Program where
  | lineProgram
  | texProgram
  deriving DecidableEq

/-- The buffer objects. -/
inductive Buffer where
  | vbo
  | eboTri
  | eboLine
  deriving DecidableEq

/-- Primitive mode of a draw call. -/
inductive DrawMode where
  | triangles
  | lines
  deriving DecidableEq

/-- The OpenGL / GLFW calls of mesh upload, loop body and teardown. -/
inductive GLCall where
  | bufferData (b : Buffer) (size : Nat)
  | clearColor (r g b a : F32)
  | clear
  | useProgram (p : Program)
  | uniformModel (p : Program) (angle : F32)
  | uniformView (p : Program) (camX camY camZ : F32)
  | activeTexture
  | bindTexture
  | bindVertexArray
  | bindElementBuffer (b : Buffer)
  | drawElements (mode : DrawMode) (count : Nat)
  | swapBuffers
  | pollEvents
  | deleteVertexArrays
  | deleteBuffers (b : Buffer)
  | deleteProgram (p : Program)
  | deleteTextures
  | destroyWindow
  | terminate
  deriving DecidableEq

/-- The three `glBufferData` uploads (main.cpp:153, 157, 173). -/
def meshUpload : List GLCall :=
  [ GLCall.bufferData Buffer.vbo sizeofVertices,
    GLCall.bufferData Buffer.eboTri sizeofTriIndices,
    GLCall.bufferData Buffer.eboLine sizeofLineIndices ]

/-- The two states of the render loop. -/
inductive Phase where
  | running
  | closing
  deriving DecidableEq

/-- Variables of `main` that live across loop iterations, with the trace of calls issued. -/
structure LoopState where
  phase : Phase
  shouldClose : Bool
  camAngle : F32
  radius : F32
  camPosF : F32
  lastTime : F32
  calls : List GLCall

/-- What one iteration reads from GLFW: the clock (already converted to `float`), the key
state seen by `processInput`, and whether `glfwPollEvents` handles a close request. -/
structure FrameInput where
  now : F32
  keys : Keys
  closeRequested : Bool

/-- State of `main` on reaching the loop; `t0` is the clock reading stored in `lastTime`. -/
def initialLoop (t0 : F32) : LoopState :=
  { phase := Phase.running, shouldClose := false,
    camAngle := F32.lit 0, radius := F32.lit 3, camPosF := F32.lit 1,
    lastTime := t0, calls := [] }

/-- The camera position of one frame (main.cpp:226-228). -/
def cameraPosition (libm : Libm) (camAngle radius : F32) : F32 × F32 × F32 :=
  (F32.mul (libm.sin camAngle) radius, F32.lit 1, F32.mul (libm.cos camAngle) radius)

/-- Calls of one loop body (main.cpp:218-255) for a clock reading and a camera. -/
def frameCalls (libm : Libm) (now camAngle radius : F32) : List GLCall :=
  let angle := F32.mul now (F32.lit (4/5))
  let camPos := cameraPosition libm camAngle radius
  [ GLCall.clearColor (F32.lit (7/100)) (F32.lit (13/100)) (F32.lit (17/100)) (F32.lit 1),
    GLCall.clear,
    GLCall.useProgram Program.texProgram,
    GLCall.uniformModel Program.texProgram angle,
    GLCall.uniformView Program.texProgram camPos.1 camPos.2.1 camPos.2.2,
    GLCall.activeTexture,
    GLCall.bindTexture,
    GLCall.bindVertexArray,
    GLCall.bindElementBuffer Buffer.eboTri,
    GLCall.drawElements DrawMode.triangles (sizeofTriIndices / sizeofUnsignedInt),
    GLCall.useProgram Program.lineProgram,
    GLCall.uniformModel Program.lineProgram angle,
    GLCall.uniformView Program.lineProgram camPos.1 camPos.2.1 camPos.2.2,
    GLCall.bindElementBuffer Buffer.eboLine,
    GLCall.drawElements DrawMode.lines (sizeofLineIndices / sizeofUnsignedInt),
    GLCall.swapBuffers,
    GLCall.pollEvents ]

/-- Calls after the loop (main.cpp:259-268). -/
def teardownCalls : List GLCall :=
  [ GLCall.deleteVertexArrays,
    GLCall.deleteBuffers Buffer.vbo,
    GLCall.deleteBuffers Buffer.eboTri,
    GLCall.deleteBuffers Buffer.eboLine,
    GLCall.deleteProgram Program.lineProgram,
    GLCall.deleteProgram Program.texProgram,
    GLCall.deleteTextures,
    GLCall.destroyWindow,
    GLCall.terminate ]

/-- One loop body (main.cpp:210-255). -/
def loopBody (libm : Libm) (inp : FrameInput) (s : LoopState) : LoopState :=
  let now := inp.now
  let dt := F32.sub now s.lastTime
  let o := processInput inp.keys
    { camAngle := s.camAngle, radius := s.radius, camPos := s.camPosF,
      shouldClose := s.shouldClose } dt
  { phase := Phase.running,
    shouldClose := o.shouldClose || inp.closeRequested,
    camAngle := o.camAngle, radius := o.radius, camPosF := o.camPos,
    lastTime := now,
    calls := s.calls ++ frameCalls libm now o.camAngle o.radius }

/-- One evaluation of the loop condition `!glfwWindowShouldClose(window)` followed by what it
selects: the loop body, or leaving the loop for teardown.  Nothing runs once closing. -/
def loopStep (libm : Libm) (inp : FrameInput) (s : LoopState) : LoopState :=
  match s.phase with
  | Phase.closing => s
  | Phase.running =>
    if s.shouldClose then
      { s with phase := Phase.closing, calls := s.calls ++ teardownCalls }
    else loopBody libm inp s

/-- The loop driven by a list of per-iteration inputs. -/
def runLoop (libm : Libm) (inps : List FrameInput) (s : LoopState) : LoopState :=
  inps.foldl (fun st inp => loopStep libm inp st) s

/-- The draw calls of a trace, in order. -/
def drawCalls (calls : List GLCall) : List (DrawMode × Nat) :=
  calls.filterMap (fun c => match c with
    | GLCall.drawElements m n => some (m, n)
    | _ => none)

/-- The model-rotation angles uploaded to a program, in order. -/
def modelAngles (p : Program) (calls : List GLCall) : List F32 :=
  calls.filterMap (fun c => match c with
    | GLCall.uniformModel p' a => if p' = p then some a else none
    | _ => none)

/-- An iteration input with no key held and no close request. -/
def idleFrame (now : F32) : FrameInput :=
  { now := now, keys := noKeys, closeRequested := false }

/-- The signed amount the specification attributes to one frame, as an exact number:
`-1.5 * dt` when A or Left is held, `+1.5 * dt` when D or Right is held, both when both. -/
def exactIncrement (keys : Keys) (dt : ℚ) : ℚ :=
  (if keys.keyA || keys.keyLeft then -(3/2 * dt) else 0)
    + (if keys.keyD || keys.keyRight then 3/2 * dt else 0)

/-- The angle the specification predicts: the initial angle plus the exact sum of the
increments of all frames. -/
def exactAngle (a0 : ℚ) (frames : List (Keys × ℚ)) : ℚ :=
  a0 + (frames.map (fun f => exactIncrement f.1 f.2)).sum

/-- One frame of angle accumulation in binary32: subtract the rounded product `1.5 * dt`
when A or Left is held, then add it when D or Right is held, each result rounded.  Nothing
else touches the angle. -/
def angleStep (a : F32) (keys : Keys) (dt : F32) : F32 :=
  let a1 := if keys.keyA || keys.keyLeft then F32.sub a (F32.mul (F32.fin (3/2)) dt) else a
  if keys.keyD || keys.keyRight then F32.add a1 (F32.mul (F32.fin (3/2)) dt) else a1

/-- Key state with only D held. -/
def onlyD : Keys := ⟨false, false, true, false, false, false, false, false, false⟩

/-- The binary32 value nearest to 1/60. -/
def sixtieth : ℚ := 8947849 / 2 ^ 29

/-- Key state with only Escape held. -/
def onlyEscape : Keys := ⟨false, false, false, false, false, false, false, false, true⟩

/-- Sixty clock readings 1/60 s apart after `t0`, each the nearest binary32 value. -/
def sixtyReadings (t0 : ℚ) : List F32 :=
  List.map (fun (i : Nat) => F32.round (t0 + ((i : ℚ) + 1) / 60)) (List.range 60)

/-- Key state with only S held. -/
def onlyS : Keys := ⟨false, false, false, false, false, false, true, false, false⟩

/-- Key state with only W held. -/
def onlyW : Keys := ⟨false, false, false, false, true, false, false, false, false⟩

/-- Key state with only A held. -/
def onlyA : Keys := ⟨true, false, false, false, false, false, false, false, false⟩

/-- A rational is on the binary32 grid: a significand below `2^24` times a power of two not
below `2^-149`. -/
def IsBinary32 (q : ℚ) : Prop := ∃ m e : ℤ, |m| < 2 ^ 24 ∧ -149 ≤ e ∧ q = m * 2 ^ e

/-- One frame of angle accumulation written with the arithmetic of the rationals and the
rounding `fl = roundFin`: `inc = fl(1.5 * dt)`; when A or Left is held the angle becomes
`fl(angle - inc)`; then, when D or Right is held, it becomes `fl(angle + inc)`. -/
def roundedAngleStep (a : ℚ) (keys : Keys) (d : ℚ) : ℚ :=
  let a1 := if keys.keyA || keys.keyLeft then F32.roundFin (a - F32.roundFin (3/2 * d)) else a
  if keys.keyD || keys.keyRight then F32.roundFin (a1 + F32.roundFin (3/2 * d)) else a1

/-- The angle after a sequence of frames, accumulated in frame order with rounding. -/
def roundedAngle (a0 : ℚ) (frames : List (Keys × ℚ)) : ℚ :=
  frames.foldl (fun a f => roundedAngleStep a f.1 f.2) a0

/-- Along the run, the angle before each frame and each delta time have magnitude at most
`2^100`, so no operation overflows the binary32 range. -/
def angleRunBounded : ℚ → List (Keys × ℚ) → Prop
  | _, [] => True
  | a0, f :: fs =>
    |a0| ≤ 2 ^ 100 ∧ |f.2| ≤ 2 ^ 100 ∧ angleRunBounded (roundedAngleStep a0 f.1 f.2) fs

/-- The radius is a finite number between the two clamp bounds. -/
def InRange (r : F32) : Prop := ∃ q : ℚ, r = F32.fin q ∧ 1/2 ≤ q ∧ q ≤ 10

/-! ## Rounding facts -/

namespace F32

theorem roundEven_intCast (n : ℤ) : roundEven (n : ℚ) = n := by
  simp [roundEven]

theorem roundEven_le_of_le {x : ℚ} {n : ℤ} (h : x ≤ n) : roundEven x ≤ n := by
  rcases eq_or_lt_of_le h with h | h
  · subst h; simp [roundEven_intCast]
  · have hf : ⌊x⌋ < n := Int.floor_lt.mpr h
    unfold roundEven
    split_ifs <;> omega

theorem le_roundEven_of_le {x : ℚ} {n : ℤ} (h : (n : ℚ) ≤ x) : n ≤ roundEven x := by
  have hf : n ≤ ⌊x⌋ := Int.le_floor.mpr h
  unfold roundEven
  split_ifs <;> omega

theorem two_zpow_pos (e : ℤ) : (0 : ℚ) < 2 ^ e := by positivity

theorem log2_eq {q : ℚ} {k : ℤ} (h0 : 0 < q) (h1 : (2:ℚ) ^ k ≤ q) (h2 : q < 2 ^ (k + 1)) :
    Int.log 2 q = k := by
  have a : k ≤ Int.log 2 q := by
    rw [← Int.zpow_le_iff_le_log (by norm_num) h0]; exact_mod_cast h1
  have b : Int.log 2 q < k + 1 := by
    rw [← Int.lt_zpow_iff_log_lt (by norm_num) h0]; exact_mod_cast h2
  omega

/-- Rounding never moves a value above a point of the grid it rounds on. -/
theorem roundFin_le_of_le_grid {q c : ℚ} (n : ℤ) (hc : c = n * 2 ^ expOf q) (h : q ≤ c) :
    roundFin q ≤ c := by
  have hp := two_zpow_pos (expOf q)
  have h1 : q / 2 ^ expOf q ≤ n := by
    rw [div_le_iff₀ hp, ← hc]; exact h
  have h2 := roundEven_le_of_le h1
  rw [hc]; unfold roundFin
  exact mul_le_mul_of_nonneg_right (by exact_mod_cast h2) hp.le

/-- Rounding never moves a value below a point of the grid it rounds on. -/
theorem le_roundFin_of_grid_le {q c : ℚ} (n : ℤ) (hc : c = n * 2 ^ expOf q) (h : c ≤ q) :
    c ≤ roundFin q := by
  have hp := two_zpow_pos (expOf q)
  have h1 : (n : ℚ) ≤ q / 2 ^ expOf q := by
    rw [le_div_iff₀ hp, ← hc]; exact h
  have h2 := le_roundEven_of_le h1
  rw [hc]; unfold roundFin
  exact mul_le_mul_of_nonneg_right (by exact_mod_cast h2) hp.le

theorem roundFin_nonneg {q : ℚ} (h : 0 ≤ q) : 0 ≤ roundFin q :=
  le_roundFin_of_grid_le 0 (by simp) h

theorem roundFin_nonpos {q : ℚ} (h : q ≤ 0) : roundFin q ≤ 0 :=
  roundFin_le_of_le_grid 0 (by simp) h

theorem roundFin_le_ten {q : ℚ} (h : q ≤ 10) : roundFin q ≤ 10 := by
  rcases le_or_lt q 0 with h0 | h0
  · exact le_trans (roundFin_nonpos h0) (by norm_num)
  · have hk : Int.log 2 |q| ≤ 3 := by
      have : Int.log 2 |q| < 4 := by
        rw [← Int.lt_zpow_iff_log_lt (by norm_num) (abs_pos.mpr h0.ne')]
        rw [abs_of_pos h0]; norm_num; linarith
      omega
    have he : expOf q ≤ -20 := by unfold expOf; exact max_le (by omega) (by norm_num)
    have hge : -149 ≤ expOf q := le_max_right _ _
    refine roundFin_le_of_le_grid (10 * 2 ^ (-expOf q).toNat) ?_ h
    have : ((-expOf q).toNat : ℤ) = -expOf q := Int.toNat_of_nonneg (by omega)
    push_cast
    rw [mul_assoc, ← zpow_natCast, this, ← zpow_add₀ (by norm_num)]
    simp

theorem half_le_roundFin {q : ℚ} (h : 1/2 ≤ q) : 1/2 ≤ roundFin q := by
  have h0 : 0 < q := by linarith
  have hk : -1 ≤ Int.log 2 |q| := by
    rw [← Int.zpow_le_iff_le_log (by norm_num) (abs_pos.mpr h0.ne')]
    rw [abs_of_pos h0]; norm_num; linarith
  have he : expOf q = Int.log 2 |q| - 23 := by unfold expOf; exact max_eq_left (by omega)
  have hlow : (2:ℚ) ^ Int.log 2 |q| ≤ q := by
    have := Int.zpow_log_le_self (b := 2) (r := |q|) (by norm_num) (abs_pos.mpr h0.ne')
    exact le_trans (by exact_mod_cast this) (le_of_eq (abs_of_pos h0))
  have hgrid : (2:ℚ) ^ Int.log 2 |q| = ((2 ^ 23 : ℤ) : ℚ) * 2 ^ expOf q := by
    rw [he, zpow_sub₀ (by norm_num)]; norm_num; ring
  have h3 := le_roundFin_of_grid_le (2 ^ 23) hgrid hlow
  have h4 : (1/2 : ℚ) ≤ 2 ^ Int.log 2 |q| := by
    have : (2:ℚ) ^ (-1 : ℤ) ≤ 2 ^ Int.log 2 |q| := zpow_le_zpow_right₀ (by norm_num) hk
    simpa using this
  linarith

/-- Evaluation of `roundFin` in the normal range, given the binade of `q`. -/
theorem roundFin_eval {q : ℚ} (k n : ℤ) (h1 : (2:ℚ) ^ k ≤ |q|) (h2 : |q| < 2 ^ (k + 1))
    (hk : -126 ≤ k) (hn : roundEven (q / 2 ^ (k - 23)) = n) :
    roundFin q = n * 2 ^ (k - 23) := by
  have h0 : 0 < |q| := lt_of_lt_of_le (by positivity) h1
  have he : expOf q = k - 23 := by
    unfold expOf; rw [log2_eq h0 h1 h2]; exact max_eq_left (by omega)
  unfold roundFin; rw [he, hn]

/-- A value `m * 2^e` with a 24-bit significand, on or above the subnormal grid, is a fixed
point of rounding. -/
theorem roundFin_of_rep (q : ℚ) (m e : ℤ) (hq : q = m * 2 ^ e) (hm : |m| < 2 ^ 24)
    (he : -149 ≤ e) : roundFin q = q := by
  rcases eq_or_ne q 0 with h0 | h0
  · subst h0; simp [roundFin, roundEven]
  · have hpos : 0 < |q| := abs_pos.mpr h0
    have hlt : |q| < (2:ℚ) ^ (24 + e) := by
      rw [hq, abs_mul, abs_of_pos (by positivity : (0:ℚ) < 2 ^ e), zpow_add₀ (by norm_num)]
      have : (|(m:ℚ)|) < 2 ^ (24:ℤ) := by
        have : ((|m| : ℤ) : ℚ) < ((2 ^ 24 : ℤ) : ℚ) := by exact_mod_cast hm
        rw [Int.cast_abs] at this; norm_num at this ⊢; exact this
      exact mul_lt_mul_of_pos_right this (by positivity)
    have hk : Int.log 2 |q| < 24 + e := by
      rw [← Int.lt_zpow_iff_log_lt (by norm_num) hpos]; exact_mod_cast hlt
    have hle : expOf q ≤ e := by unfold expOf; exact max_le (by omega) he
    have hcast : ((e - expOf q).toNat : ℤ) = e - expOf q := Int.toNat_of_nonneg (by omega)
    have hdiv : q / 2 ^ expOf q = ((m * 2 ^ (e - expOf q).toNat : ℤ) : ℚ) := by
      push_cast
      rw [← zpow_natCast, hcast, hq, zpow_sub₀ (by norm_num)]
      field_simp
    unfold roundFin
    rw [hdiv, roundEven_intCast, ← hdiv]
    field_simp

theorem maxFinite_gt : (10 : ℚ) < maxFinite := by norm_num [maxFinite]

/-- A finite value of small magnitude that is a fixed point of `roundFin` rounds to itself. -/
theorem round_of_roundFin_eq (q : ℚ) (h : roundFin q = q) (hlo : -maxFinite ≤ q)
    (hhi : q ≤ maxFinite) : round q = fin q := by
  unfold round
  rw [h, if_neg (not_lt.mpr hhi), if_neg (not_lt.mpr hlo)]

theorem roundEven_of_near {x : ℚ} (n : ℤ) (h1 : (n:ℚ) - 1/2 < x) (h2 : x < n + 1/2) :
    roundEven x = n := by
  unfold roundEven
  rcases le_or_lt (n:ℚ) x with h | h
  · have hf : ⌊x⌋ = n := by rw [Int.floor_eq_iff]; exact ⟨h, by linarith⟩
    rw [hf, if_pos (by linarith)]
  · have hf : ⌊x⌋ = n - 1 := by
      rw [Int.floor_eq_iff]; push_cast; exact ⟨by linarith, by linarith⟩
    rw [hf]; push_cast
    rw [if_neg (by linarith), if_pos (by linarith)]; ring

theorem roundEven_of_tie {x : ℚ} (n : ℤ) (h : x = n + 1/2) :
    roundEven x = if n % 2 = 0 then n else n + 1 := by
  have hf : ⌊x⌋ = n := by rw [Int.floor_eq_iff]; exact ⟨by linarith, by linarith⟩
  unfold roundEven
  rw [hf, if_neg (by linarith), if_neg (by linarith)]

/-- Evaluation of `round` in the normal range from the binade of `q` and the rounded
significand. -/
theorem round_eval {q : ℚ} (k n : ℤ) (h1 : (2:ℚ) ^ k ≤ |q|) (h2 : |q| < 2 ^ (k + 1))
    (hk : -126 ≤ k) (hn : roundEven (q / 2 ^ (k - 23)) = n)
    (hlo : -maxFinite ≤ n * 2 ^ (k - 23)) (hhi : (n:ℚ) * 2 ^ (k - 23) ≤ maxFinite) :
    round q = fin (n * 2 ^ (k - 23)) := by
  unfold round
  rw [roundFin_eval k n h1 h2 hk hn, if_neg (not_lt.mpr hhi), if_neg (not_lt.mpr hlo)]

/-- A value `m * 2^e` with a 24-bit significand and an exponent in range is left unchanged by
`round`. -/
theorem round_of_rep (q : ℚ) (m e : ℤ) (hq : q = m * 2 ^ e) (hm : |m| < 2 ^ 24)
    (he : -149 ≤ e) (hlo : -maxFinite ≤ q) (hhi : q ≤ maxFinite) : round q = fin q :=
  round_of_roundFin_eq q (roundFin_of_rep q m e hq hm he) hlo hhi

theorem lit_zero : lit 0 = fin 0 :=
  round_of_rep 0 0 0 (by norm_num) (by norm_num) (by norm_num)
    (by norm_num [maxFinite]) (by norm_num [maxFinite])

theorem lit_one : lit 1 = fin 1 :=
  round_of_rep 1 1 0 (by norm_num) (by norm_num) (by norm_num)
    (by norm_num [maxFinite]) (by norm_num [maxFinite])

theorem lit_three : lit 3 = fin 3 :=
  round_of_rep 3 3 0 (by norm_num) (by norm_num) (by norm_num)
    (by norm_num [maxFinite]) (by norm_num [maxFinite])

theorem lit_ten : lit 10 = fin 10 :=
  round_of_rep 10 10 0 (by norm_num) (by norm_num) (by norm_num)
    (by norm_num [maxFinite]) (by norm_num [maxFinite])

theorem lit_half : lit (1/2) = fin (1/2) :=
  round_of_rep (1/2) 1 (-1) (by norm_num) (by norm_num) (by norm_num)
    (by norm_num [maxFinite]) (by norm_num [maxFinite])

theorem lit_three_halves : lit (3/2) = fin (3/2) :=
  round_of_rep (3/2) 3 (-1) (by norm_num) (by norm_num) (by norm_num)
    (by norm_num [maxFinite]) (by norm_num [maxFinite])

theorem roundFin_zero : roundFin 0 = 0 := by
  simp [roundFin, roundEven]

theorem roundEven_error (x : ℚ) : |(roundEven x : ℚ) - x| ≤ 1/2 := by
  have h1 := Int.floor_le x
  have h2 := Int.lt_floor_add_one x
  unfold roundEven
  split_ifs <;> rw [abs_le] <;> push_cast <;> constructor <;> linarith

/-- The result of rounding is within half a unit in the last place of the exact value. -/
theorem roundFin_error_ulp (q : ℚ) : |roundFin q - q| ≤ 2 ^ expOf q / 2 := by
  have hp := two_zpow_pos (expOf q)
  have hx : q = q / 2 ^ expOf q * 2 ^ expOf q := by field_simp
  have h := roundEven_error (q / 2 ^ expOf q)
  have e : roundFin q - q = ((roundEven (q / 2 ^ expOf q) : ℚ) - q / 2 ^ expOf q) * 2 ^ expOf q := by
    unfold roundFin; rw [sub_mul, ← hx]
  rw [e, abs_mul, abs_of_pos hp]
  calc |(roundEven (q / 2 ^ expOf q) : ℚ) - q / 2 ^ expOf q| * 2 ^ expOf q
      ≤ 1/2 * 2 ^ expOf q := mul_le_mul_of_nonneg_right h hp.le
    _ = 2 ^ expOf q / 2 := by ring

/-- Rounding error: relative error at most `2^-24`, or absolute error at most `2^-150` in the
subnormal range. -/
theorem roundFin_error (q : ℚ) : |roundFin q - q| ≤ |q| / 2 ^ 24 + 1 / 2 ^ 150 := by
  rcases eq_or_ne q 0 with h0 | h0
  · subst h0; rw [roundFin_zero]; norm_num
  · have hpos : 0 < |q| := abs_pos.mpr h0
    have h := roundFin_error_ulp q
    have hlow : (2:ℚ) ^ Int.log 2 |q| ≤ |q| := by
      have := Int.zpow_log_le_self (b := 2) (r := |q|) (by norm_num) hpos
      exact_mod_cast this
    rcases le_total (Int.log 2 |q| - 23) (-149) with hc | hc
    · have he : expOf q = -149 := by unfold expOf; exact max_eq_right hc
      rw [he] at h
      have e2 : (2:ℚ) ^ (-149 : ℤ) / 2 = 1 / 2 ^ 150 := by
        rw [zpow_neg, zpow_ofNat]; norm_num
      rw [e2] at h
      have : 0 ≤ |q| / 2 ^ 24 := by positivity
      linarith
    · have he : expOf q = Int.log 2 |q| - 23 := by unfold expOf; exact max_eq_left hc
      rw [he] at h
      have e2 : (2:ℚ) ^ (Int.log 2 |q| - 23) / 2 = 2 ^ Int.log 2 |q| / 2 ^ 24 := by
        rw [zpow_sub₀ (by norm_num)]; norm_num; ring
      rw [e2] at h
      have h3 : (2:ℚ) ^ Int.log 2 |q| / 2 ^ 24 ≤ |q| / 2 ^ 24 :=
        div_le_div_of_nonneg_right hlow (by positivity)
      have : (0:ℚ) ≤ 1 / 2 ^ 150 := by positivity
      linarith

/-- A bound `m * 2^j` with a 24-bit significand lies on the grid used to round any nonzero
`q` of magnitude at most that bound. -/
theorem grid_of_abs_le {q : ℚ} (m j : ℤ) (hq : q ≠ 0) (hm : m < 2 ^ 24) (hj : -149 ≤ j)
    (h : |q| ≤ m * 2 ^ j) : ∃ n : ℤ, (m : ℚ) * 2 ^ j = n * 2 ^ expOf q := by
  have hpos : 0 < |q| := abs_pos.mpr hq
  have hlt : |q| < (2:ℚ) ^ (24 + j) := by
    rw [zpow_add₀ (by norm_num)]
    have hm' : (m:ℚ) < 2 ^ (24:ℤ) := by
      have : ((m : ℤ) : ℚ) < ((2 ^ 24 : ℤ) : ℚ) := by exact_mod_cast hm
      norm_num at this ⊢; exact this
    exact lt_of_le_of_lt h (mul_lt_mul_of_pos_right hm' (by positivity))
  have hk : Int.log 2 |q| < 24 + j := by
    rw [← Int.lt_zpow_iff_log_lt (by norm_num) hpos]; exact_mod_cast hlt
  have hle : expOf q ≤ j := by unfold expOf; exact max_le (by omega) hj
  have hcast : ((j - expOf q).toNat : ℤ) = j - expOf q := Int.toNat_of_nonneg (by omega)
  refine ⟨m * 2 ^ (j - expOf q).toNat, ?_⟩
  push_cast
  rw [← zpow_natCast, hcast, zpow_sub₀ (by norm_num)]
  field_simp

/-- Rounding never takes a value past a binary32 bound on its magnitude. -/
theorem abs_roundFin_le_rep {q : ℚ} (m j : ℤ) (hm : m < 2 ^ 24) (hj : -149 ≤ j)
    (h : |q| ≤ m * 2 ^ j) : |roundFin q| ≤ m * 2 ^ j := by
  rcases eq_or_ne q 0 with h0 | h0
  · subst h0; rw [roundFin_zero]; simpa using h
  · obtain ⟨n, hn⟩ := grid_of_abs_le m j h0 hm hj h
    have hq := abs_le.mp h
    rw [abs_le]
    constructor
    · refine le_roundFin_of_grid_le (-n) ?_ hq.1
      push_cast; rw [neg_mul, ← hn]
    · exact roundFin_le_of_le_grid n hn hq.2

/-- Rounding never takes a value below a positive binary32 value it is at least. -/
theorem rep_le_roundFin {q : ℚ} (m j : ℤ) (hm0 : 0 < m) (hm : m < 2 ^ 24) (hj : -149 ≤ j)
    (h : (m : ℚ) * 2 ^ j ≤ q) : (m : ℚ) * 2 ^ j ≤ roundFin q := by
  have hm0' : (0:ℚ) < m := by exact_mod_cast hm0
  have hc : (0:ℚ) < m * 2 ^ j := mul_pos hm0' (two_zpow_pos j)
  have h0 : 0 < q := lt_of_lt_of_le hc h
  have habs : |q| = q := abs_of_pos h0
  rcases le_or_lt (expOf q) j with hle | hgt
  · have hcast : ((j - expOf q).toNat : ℤ) = j - expOf q := Int.toNat_of_nonneg (by omega)
    refine le_roundFin_of_grid_le (m * 2 ^ (j - expOf q).toNat) ?_ h
    push_cast
    rw [← zpow_natCast, hcast, zpow_sub₀ (by norm_num)]
    field_simp
  · have he : expOf q = Int.log 2 |q| - 23 := by
      unfold expOf at hgt ⊢
      rcases le_total (Int.log 2 |q| - 23) (-149) with hc' | hc'
      · rw [max_eq_right hc'] at hgt; omega
      · exact max_eq_left hc'
    have hlow : (2:ℚ) ^ Int.log 2 |q| ≤ q := by
      have := Int.zpow_log_le_self (b := 2) (r := |q|) (by norm_num) (abs_pos.mpr h0.ne')
      exact le_trans (by exact_mod_cast this) (le_of_eq habs)
    have hgrid : (2:ℚ) ^ Int.log 2 |q| = ((2 ^ 23 : ℤ) : ℚ) * 2 ^ expOf q := by
      rw [he, zpow_sub₀ (by norm_num)]; norm_num; ring
    have h3 := le_roundFin_of_grid_le (2 ^ 23) hgrid hlow
    have hm' : (m:ℚ) < 2 ^ (24:ℤ) := by
      have : ((m : ℤ) : ℚ) < ((2 ^ 24 : ℤ) : ℚ) := by exact_mod_cast hm
      norm_num at this ⊢; exact this
    have h4 : (m:ℚ) * 2 ^ j < 2 ^ (24 + j) := by
      rw [zpow_add₀ (by norm_num)]
      exact mul_lt_mul_of_pos_right hm' (two_zpow_pos j)
    have h5 : (2:ℚ) ^ (24 + j) ≤ 2 ^ Int.log 2 |q| :=
      zpow_le_zpow_right₀ (by norm_num) (by omega)
    linarith

/-- Rounding never takes a value above a positive binary32 value it is at most. -/
theorem roundFin_le_rep {q : ℚ} (m j : ℤ) (hm0 : 0 < m) (hm : m < 2 ^ 24) (hj : -149 ≤ j)
    (h : q ≤ (m : ℚ) * 2 ^ j) : roundFin q ≤ (m : ℚ) * 2 ^ j := by
  have hm0' : (0:ℚ) < m := by exact_mod_cast hm0
  have hc : (0:ℚ) < m * 2 ^ j := mul_pos hm0' (two_zpow_pos j)
  rcases le_or_lt q 0 with h0 | h0
  · exact le_trans (roundFin_nonpos h0) hc.le
  · have := abs_roundFin_le_rep m j hm hj (by rw [abs_of_pos h0]; exact h)
    exact le_trans (le_abs_self _) this

/-- Rounding never takes a value below a negative binary32 value it is at least. -/
theorem neg_rep_le_roundFin {q : ℚ} (m j : ℤ) (hm0 : 0 < m) (hm : m < 2 ^ 24) (hj : -149 ≤ j)
    (h : -((m : ℚ) * 2 ^ j) ≤ q) : -((m : ℚ) * 2 ^ j) ≤ roundFin q := by
  have hm0' : (0:ℚ) < m := by exact_mod_cast hm0
  have hc : (0:ℚ) < m * 2 ^ j := mul_pos hm0' (two_zpow_pos j)
  rcases le_or_lt 0 q with h0 | h0
  · have := roundFin_nonneg h0; linarith
  · have := abs_roundFin_le_rep m j hm hj (by rw [abs_of_neg h0]; linarith)
    have h2 := neg_abs_le (roundFin q)
    linarith

theorem maxFinite_rep : maxFinite = ((16777215 : ℤ) : ℚ) * 2 ^ (104 : ℤ) := by
  norm_num [maxFinite]

theorem roundFin_le_maxFinite {q : ℚ} (h : q ≤ maxFinite) : roundFin q ≤ maxFinite := by
  rw [maxFinite_rep] at h ⊢
  exact roundFin_le_rep 16777215 104 (by norm_num) (by norm_num) (by norm_num) h

theorem neg_maxFinite_le_roundFin {q : ℚ} (h : -maxFinite ≤ q) : -maxFinite ≤ roundFin q := by
  rw [maxFinite_rep] at h ⊢
  exact neg_rep_le_roundFin 16777215 104 (by norm_num) (by norm_num) (by norm_num) h

/-- A rounded value beyond the largest finite binary32 value is at least `2^128`. -/
theorem roundFin_overflow_ge {q : ℚ} (h : maxFinite < roundFin q) :
    (2:ℚ) ^ (128 : ℤ) ≤ roundFin q := by
  have hq : maxFinite < q := by
    by_contra hc
    exact absurd (roundFin_le_maxFinite (not_lt.mp hc)) (not_le.mpr h)
  have hmf : (0:ℚ) < maxFinite := by norm_num [maxFinite]
  have h0 : 0 < q := lt_trans hmf hq
  rcases le_or_lt ((2:ℚ) ^ (128 : ℤ)) q with hbig | hsmall
  · have e : ((1:ℤ):ℚ) * (2:ℚ) ^ (128:ℤ) = 2 ^ (128:ℤ) := by rw [Int.cast_one, one_mul]
    rw [← e] at hbig ⊢
    exact rep_le_roundFin 1 128 (by norm_num) (by norm_num) (by norm_num) hbig
  · have hk : Int.log 2 |q| = 127 := by
      rw [abs_of_pos h0]
      refine log2_eq h0 ?_ (by norm_num; exact_mod_cast hsmall)
      have : (2:ℚ) ^ (127:ℤ) ≤ maxFinite := by norm_num [maxFinite]
      linarith
    have he : expOf q = 104 := by unfold expOf; rw [hk]; norm_num
    have hval : roundFin q = (roundEven (q / 2 ^ (104:ℤ)) : ℚ) * 2 ^ (104:ℤ) := by
      unfold roundFin; rw [he]
    rw [hval, maxFinite_rep] at h
    have hlt : ((16777215 : ℤ) : ℚ) < (roundEven (q / 2 ^ (104:ℤ)) : ℚ) :=
      lt_of_mul_lt_mul_right h (two_zpow_pos 104).le
    have hn2 : (16777216 : ℤ) ≤ roundEven (q / 2 ^ (104:ℤ)) := by
      have : (16777215 : ℤ) < roundEven (q / 2 ^ (104:ℤ)) := by exact_mod_cast hlt
      omega
    rw [hval]
    have hn3 : ((16777216 : ℤ) : ℚ) ≤ (roundEven (q / 2 ^ (104:ℤ)) : ℚ) := by
      exact_mod_cast hn2
    have e128 : (2:ℚ) ^ (128:ℤ) = ((16777216 : ℤ) : ℚ) * 2 ^ (104:ℤ) := by norm_num
    rw [e128]
    exact mul_le_mul_of_nonneg_right hn3 (two_zpow_pos 104).le

theorem add_fin (a b : ℚ) : add (fin a) (fin b) = round (a + b) := rfl

theorem mul_fin (a b : ℚ) : mul (fin a) (fin b) = round (a * b) := rfl

theorem sub_fin (a b : ℚ) : sub (fin a) (fin b) = round (a - b) := by
  rw [sub_eq_add_neg]; rfl

/-- On finite values `std::min` is the minimum of the two numbers. -/
theorem stdMin_fin (a b : ℚ) : stdMin (fin a) (fin b) = fin (min a b) := by
  unfold stdMin lt
  by_cases h : b < a
  · simp [h, min_eq_right h.le]
  · simp [h, min_eq_left (not_lt.mp h)]

/-- On finite values `std::max` is the maximum of the two numbers. -/
theorem stdMax_fin (a b : ℚ) : stdMax (fin a) (fin b) = fin (max a b) := by
  unfold stdMax lt
  by_cases h : a < b
  · simp [h, max_eq_right h.le]
  · simp [h, max_eq_left (not_lt.mp h)]

end F32

/-! ## Input handler: radius -/

open F32 in
/-- A delta time that compares `>= 0` gives an increment `1.5f * dt` that is a finite
non-negative number or plus infinity. -/
theorem increment_cases {dt : F32} (h : F32.le (fin 0) dt = true) :
    (∃ m : ℚ, 0 ≤ m ∧ mul (lit (3/2)) dt = fin m) ∨ mul (lit (3/2)) dt = inf false := by
  rw [lit_three_halves]
  cases dt with
  | nan => simp [F32.le] at h
  | inf b =>
    right
    simp only [F32.le, Bool.not_eq_true'] at h
    subst h
    norm_num [mul]
  | fin d =>
    simp only [F32.le, decide_eq_true_eq] at h
    have hr : 0 ≤ roundFin (3/2 * d) := roundFin_nonneg (by linarith)
    have hm := maxFinite_gt
    rw [mul_fin]; unfold F32.round
    by_cases h1 : maxFinite < roundFin (3/2 * d)
    · right; rw [if_pos h1]
    · left
      rw [if_neg h1, if_neg (by linarith)]
      exact ⟨_, hr, rfl⟩

open F32 in
/-- Clamping from below with `std::max(0.5f, y)` lands in range when `y` is minus infinity
or a finite number that is at most 10. -/
theorem stdMax_half_inRange {y : F32} (hy : y = inf true ∨ ∃ q : ℚ, y = fin q ∧ q ≤ 10) :
    InRange (stdMax (lit (1/2)) y) := by
  rw [lit_half]
  rcases hy with rfl | ⟨q, rfl, hq⟩
  · exact ⟨1/2, by simp [stdMax, lt], le_refl _, by norm_num⟩
  · rw [stdMax_fin]
    exact ⟨_, rfl, le_max_left _ _, max_le (by norm_num) hq⟩

open F32 in
/-- Clamping from above with `std::min(10.0f, y)` lands in range when `y` is plus infinity
or a finite number that is at least 0.5. -/
theorem stdMin_ten_inRange {y : F32} (hy : y = inf false ∨ ∃ q : ℚ, y = fin q ∧ 1/2 ≤ q) :
    InRange (stdMin (lit 10) y) := by
  rw [lit_ten]
  rcases hy with rfl | ⟨q, rfl, hq⟩
  · exact ⟨10, by simp [stdMin, lt], by norm_num, le_refl _⟩
  · rw [stdMin_fin]
    exact ⟨_, rfl, le_min (by norm_num) hq, min_le_left _ _⟩

open F32 in
/-- Subtracting a non-negative increment from an in-range radius gives minus infinity or a
finite number that is at most 10. -/
theorem sub_increment_le {r inc : F32} (hr : InRange r)
    (hinc : (∃ m : ℚ, 0 ≤ m ∧ inc = fin m) ∨ inc = inf false) :
    sub r inc = inf true ∨ ∃ q : ℚ, sub r inc = fin q ∧ q ≤ 10 := by
  obtain ⟨a, rfl, -, ha⟩ := hr
  rcases hinc with ⟨m, hm, rfl⟩ | rfl
  · have h10 : roundFin (a - m) ≤ 10 := roundFin_le_ten (by linarith)
    have hmax := maxFinite_gt
    rw [sub_fin]; unfold F32.round
    rw [if_neg (by linarith)]
    by_cases h2 : roundFin (a - m) < -maxFinite
    · left; rw [if_pos h2]
    · right; rw [if_neg h2]; exact ⟨_, rfl, h10⟩
  · left; simp [sub, neg, add]

open F32 in
/-- Adding a non-negative increment to an in-range radius gives plus infinity or a finite
number that is at least 0.5. -/
theorem add_increment_ge {r inc : F32} (hr : InRange r)
    (hinc : (∃ m : ℚ, 0 ≤ m ∧ inc = fin m) ∨ inc = inf false) :
    add r inc = inf false ∨ ∃ q : ℚ, add r inc = fin q ∧ 1/2 ≤ q := by
  obtain ⟨a, rfl, ha, -⟩ := hr
  rcases hinc with ⟨m, hm, rfl⟩ | rfl
  · have hlo : 1/2 ≤ roundFin (a + m) := half_le_roundFin (by linarith)
    have hmax := maxFinite_gt
    rw [add_fin]; unfold F32.round
    by_cases h1 : maxFinite < roundFin (a + m)
    · left; rw [if_pos h1]
    · right; rw [if_neg h1, if_neg (by linarith)]; exact ⟨_, rfl, hlo⟩
  · left; simp [add]

/-- One call of `processInput` with `dt >= 0` keeps the radius in range. -/
theorem processInput_inRange (keys : Keys) (s : OrbitState) (dt : F32)
    (hr : InRange s.radius) (hdt : F32.le (F32.fin 0) dt = true) :
    InRange (processInput keys s dt).radius := by
  have hinc := increment_cases hdt
  obtain ⟨r1, hr1⟩ : ∃ r1 : F32, r1 = (if keys.keyW || keys.keyUp then
      F32.stdMax (F32.lit (1/2)) (F32.sub s.radius (F32.mul (F32.lit (3/2)) dt))
    else s.radius) := ⟨_, rfl⟩
  have key : (processInput keys s dt).radius = (if keys.keyS || keys.keyDown then
      F32.stdMin (F32.lit 10) (F32.add r1 (F32.mul (F32.lit (3/2)) dt)) else r1) := by
    rw [hr1]; rfl
  have h1 : InRange r1 := by
    rw [hr1]
    split_ifs
    · exact stdMax_half_inRange (sub_increment_le hr hinc)
    · exact hr
  rw [key]
  split_ifs
  · exact stdMin_ten_inRange (add_increment_ge h1 hinc)
  · exact h1

theorem initialOrbit_inRange : InRange initialOrbit.radius :=
  ⟨3, F32.lit_three, by norm_num, by norm_num⟩

theorem runInput_inRange (frames : List (Keys × F32)) (s : OrbitState)
    (hs : InRange s.radius) (h : ∀ f ∈ frames, F32.le (F32.fin 0) f.2 = true) :
    InRange (runInput frames s).radius := by
  induction frames generalizing s with
  | nil => exact hs
  | cons f fs ih =>
    have hf := h f (List.mem_cons_self _ _)
    exact ih (processInput f.1 s f.2) (processInput_inRange f.1 s f.2 hs hf)
      (fun g hg => h g (List.mem_cons_of_mem _ hg))

theorem processInput_radius_out (keys : Keys) (s : OrbitState) (dt : F32)
    (hw : keys.keyW = false) (hu : keys.keyUp = false)
    (hs : keys.keyS = true ∨ keys.keyDown = true) :
    (processInput keys s dt).radius
      = F32.stdMin (F32.fin 10) (F32.add s.radius (F32.mul (F32.fin (3/2)) dt)) := by
  have hsd : (keys.keyS || keys.keyDown) = true := by
    rcases hs with h | h <;> simp [h]
  simp only [processInput, hw, hu, hsd, Bool.or_self, Bool.false_eq_true, if_true, if_false,
    F32.lit_ten, F32.lit_three_halves]

theorem processInput_radius_in (keys : Keys) (s : OrbitState) (dt : F32)
    (hs : keys.keyS = false) (hd : keys.keyDown = false)
    (hw : keys.keyW = true ∨ keys.keyUp = true) :
    (processInput keys s dt).radius
      = F32.stdMax (F32.fin (1/2)) (F32.sub s.radius (F32.mul (F32.fin (3/2)) dt)) := by
  have hwu : (keys.keyW || keys.keyUp) = true := by
    rcases hw with h | h <;> simp [h]
  simp only [processInput, hs, hd, hwu, Bool.or_self, Bool.false_eq_true, if_true, if_false,
    F32.lit_half, F32.lit_three_halves]

open F32 in
theorem round_cases (q : ℚ) :
    (maxFinite < roundFin q ∧ F32.round q = inf false)
    ∨ (roundFin q < -maxFinite ∧ F32.round q = inf true)
    ∨ (-maxFinite ≤ roundFin q ∧ roundFin q ≤ maxFinite ∧ F32.round q = fin (roundFin q)) := by
  unfold F32.round
  by_cases h1 : maxFinite < roundFin q
  · left; exact ⟨h1, if_pos h1⟩
  · by_cases h2 : roundFin q < -maxFinite
    · right; left; rw [if_neg h1, if_pos h2]; exact ⟨h2, rfl⟩
    · right; right; rw [if_neg h1, if_neg h2]
      exact ⟨not_lt.mp h2, not_lt.mp h1, rfl⟩

open F32 in
theorem stdMin_ten_round (q : ℚ) (h : -maxFinite ≤ roundFin q) :
    stdMin (fin 10) (F32.round q) = fin (min 10 (roundFin q)) := by
  have hm := maxFinite_gt
  rcases round_cases q with ⟨h1, e⟩ | ⟨h1, -⟩ | ⟨-, -, e⟩
  · rw [e, min_eq_left (by linarith)]; simp [stdMin, lt]
  · linarith
  · rw [e, stdMin_fin]

open F32 in
theorem stdMax_half_round (q : ℚ) (h : roundFin q ≤ maxFinite) :
    stdMax (fin (1/2)) (F32.round q) = fin (max (1/2) (roundFin q)) := by
  have hm := maxFinite_gt
  rcases round_cases q with ⟨h1, -⟩ | ⟨h1, e⟩ | ⟨-, -, e⟩
  · linarith
  · rw [e, max_eq_left (by linarith)]; simp [stdMax, lt]
  · rw [e, stdMax_fin]

theorem pow_hundred_le_maxFinite : (2:ℚ) ^ 100 ≤ F32.maxFinite := by
  norm_num [F32.maxFinite]

open F32 in
/-- Magnitude bound `2^100` survives rounding. -/
theorem abs_roundFin_le_pow_hundred {q : ℚ} (h : |q| ≤ 2 ^ 100) : |roundFin q| ≤ 2 ^ 100 := by
  have e : ((1:ℤ):ℚ) * (2:ℚ) ^ (100:ℤ) = (2:ℚ) ^ (100:ℕ) := by
    rw [Int.cast_one, one_mul]; exact zpow_ofNat 2 100
  rw [← e] at h ⊢
  exact abs_roundFin_le_rep 1 100 (by norm_num) (by norm_num) h

open F32 in
theorem ten_le_roundFin {q : ℚ} (h : 10 ≤ q) : 10 ≤ roundFin q := by
  have e : ((5:ℤ):ℚ) * (2:ℚ) ^ (1:ℤ) = 10 := by norm_num
  rw [← e] at h ⊢
  exact rep_le_roundFin 5 1 (by norm_num) (by norm_num) (by norm_num) h

open F32 in
/-- Value of the zoom-out expression `std::min(10.0f, radius + 1.5f * dt)` on finite data. -/
theorem zoomOut_value (r d : ℚ) (hr : |r| ≤ maxFinite) (hd : 0 ≤ d) :
    stdMin (fin 10) (add (fin r) (mul (fin (3/2)) (fin d)))
      = fin (min 10 (roundFin (r + roundFin (3/2 * d)))) := by
  have hX : 0 ≤ roundFin (3/2 * d) := roundFin_nonneg (by linarith)
  have hm := maxFinite_gt
  have hr' := abs_le.mp hr
  rw [mul_fin]
  rcases round_cases (3/2 * d) with ⟨h1, e⟩ | ⟨h1, -⟩ | ⟨-, -, e⟩
  · have h10 : 10 ≤ roundFin (r + roundFin (3/2 * d)) := by
      refine ten_le_roundFin ?_
      have h128 := roundFin_overflow_ge h1
      have : maxFinite + 10 ≤ (2:ℚ) ^ (128:ℤ) := by norm_num [maxFinite]
      linarith
    rw [e, min_eq_left h10]
    simp [add, stdMin, lt]
  · linarith
  · rw [e, add_fin]
    exact stdMin_ten_round _ (neg_maxFinite_le_roundFin (by linarith))

open F32 in
/-- Value of the zoom-in expression `std::max(0.5f, radius - 1.5f * dt)` on finite data. -/
theorem zoomIn_value (r d : ℚ) (hr : |r| ≤ maxFinite) (hd : 0 ≤ d) :
    stdMax (fin (1/2)) (sub (fin r) (mul (fin (3/2)) (fin d)))
      = fin (max (1/2) (roundFin (r - roundFin (3/2 * d)))) := by
  have hX : 0 ≤ roundFin (3/2 * d) := roundFin_nonneg (by linarith)
  have hm := maxFinite_gt
  have hr' := abs_le.mp hr
  rw [mul_fin]
  rcases round_cases (3/2 * d) with ⟨h1, e⟩ | ⟨h1, -⟩ | ⟨-, -, e⟩
  · have hneg : roundFin (r - roundFin (3/2 * d)) ≤ 0 := roundFin_nonpos (by linarith)
    rw [e, max_eq_left (by linarith)]
    simp [sub, neg, add, stdMax, lt]
  · linarith
  · rw [e, sub_fin]
    exact stdMax_half_round _ (roundFin_le_maxFinite (by linarith))

open F32 in
/-- The result of rounding is on the binary32 grid. -/
theorem roundFin_isBinary32 (q : ℚ) : IsBinary32 (roundFin q) := by
  rcases eq_or_ne q 0 with h0 | h0
  · subst h0
    exact ⟨0, 0, by norm_num, by norm_num, by rw [roundFin_zero]; norm_num⟩
  · have hpos : 0 < |q| := abs_pos.mpr h0
    have hp := two_zpow_pos (expOf q)
    have hge : -149 ≤ expOf q := le_max_right _ _
    have hk : Int.log 2 |q| - 23 ≤ expOf q := le_max_left _ _
    have hlt : |q| < (2:ℚ) ^ (Int.log 2 |q| + 1) := by
      have := Int.lt_zpow_succ_log_self (b := 2) (by norm_num) |q|
      exact_mod_cast this
    have hle : (2:ℚ) ^ (Int.log 2 |q| + 1) ≤ 2 ^ (24 + expOf q) :=
      zpow_le_zpow_right₀ (by norm_num) (by omega)
    have hx : |q / 2 ^ expOf q| ≤ ((16777216 : ℤ) : ℚ) := by
      rw [abs_div, abs_of_pos hp, div_le_iff₀ hp]
      have e : ((16777216 : ℤ) : ℚ) * 2 ^ expOf q = 2 ^ (24 + expOf q) := by
        rw [zpow_add₀ (by norm_num)]; norm_num
      rw [e]; linarith
    have hx' := abs_le.mp hx
    have hn1 : roundEven (q / 2 ^ expOf q) ≤ 16777216 := roundEven_le_of_le hx'.2
    have hn2 : -16777216 ≤ roundEven (q / 2 ^ expOf q) :=
      le_roundEven_of_le (by push_cast at hx' ⊢; exact hx'.1)
    rcases lt_or_eq_of_le hn1 with h1 | h1
    · rcases lt_or_eq_of_le hn2 with h2 | h2
      · refine ⟨roundEven (q / 2 ^ expOf q), expOf q, ?_, hge, rfl⟩
        rw [abs_lt]; constructor <;> norm_num <;> omega
      · refine ⟨-8388608, expOf q + 1, by norm_num, by omega, ?_⟩
        unfold roundFin
        rw [← h2, zpow_add₀ (by norm_num)]; push_cast; ring
    · refine ⟨8388608, expOf q + 1, by norm_num, by omega, ?_⟩
      unfold roundFin
      rw [h1, zpow_add₀ (by norm_num)]; push_cast; ring

open F32 in
theorem zoomOut_inf (r : ℚ) :
    stdMin (fin 10) (add (fin r) (mul (fin (3/2)) (inf false))) = fin 10 := by
  norm_num [mul, add, stdMin, lt]

open F32 in
theorem zoomIn_inf (r : ℚ) :
    stdMax (fin (1/2)) (sub (fin r) (mul (fin (3/2)) (inf false))) = fin (1/2) := by
  norm_num [mul, sub, neg, add, stdMax, lt]

theorem roundFin_of_isBinary32 {q : ℚ} (h : IsBinary32 q) : F32.roundFin q = q := by
  obtain ⟨m, e, hm, he, hq⟩ := h
  exact F32.roundFin_of_rep q m e hq hm he

/-- C1, amended: for every finite delta time `dt >= 0` and every finite radius (of magnitude
at most the largest binary32 value), one `processInput` call with a zoom-out key (S or Down) held and no zoom-in
key held yields `radius' = min(10, fl(radius + fl(1.5 * dt)))`, and with a zoom-in key (W or
Up) held and no zoom-out key held yields `radius' = max(0.5, fl(radius - fl(1.5 * dt)))`,
where `fl` is rounding to the nearest binary32 value (`roundFin`), `min`, `max`, `+`, `-`
and `*` being those of the rationals.  For `dt = +inf` the results are 10 and 0.5.  When
`1.5 * dt` and `radius ± 1.5 * dt` are binary32 values the results are exactly
`min(10, radius + 1.5 * dt)` and `max(0.5, radius - 1.5 * dt)`.  `fl(q)` is on the binary32
grid and differs from `q` by at most `|q| / 2^24 + 2^-150`. -/
theorem C1_zoom_step_rounded (keys : Keys) (s : OrbitState) (r d : ℚ)
    (hr : s.radius = F32.fin r) (hrb : |r| ≤ F32.maxFinite) (hd : 0 ≤ d) :
    (keys.keyW = false → keys.keyUp = false → (keys.keyS = true ∨ keys.keyDown = true) →
      (processInput keys s (F32.fin d)).radius
          = F32.fin (min 10 (F32.roundFin (r + F32.roundFin (3/2 * d))))
      ∧ (processInput keys s (F32.inf false)).radius = F32.fin 10
      ∧ (IsBinary32 (3/2 * d) → IsBinary32 (r + 3/2 * d) →
          (processInput keys s (F32.fin d)).radius = F32.fin (min 10 (r + 3/2 * d))))
    ∧ (keys.keyS = false → keys.keyDown = false → (keys.keyW = true ∨ keys.keyUp = true) →
      (processInput keys s (F32.fin d)).radius
          = F32.fin (max (1/2) (F32.roundFin (r - F32.roundFin (3/2 * d))))
      ∧ (processInput keys s (F32.inf false)).radius = F32.fin (1/2)
      ∧ (IsBinary32 (3/2 * d) → IsBinary32 (r - 3/2 * d) →
          (processInput keys s (F32.fin d)).radius = F32.fin (max (1/2) (r - 3/2 * d))))
    ∧ (∀ q : ℚ, IsBinary32 (F32.roundFin q)
        ∧ |F32.roundFin q - q| ≤ |q| / 2 ^ 24 + 1 / 2 ^ 150) := by
  refine ⟨?_, ?_, fun q => ⟨roundFin_isBinary32 q, F32.roundFin_error q⟩⟩
  · intro hw hu hs
    have e1 : (processInput keys s (F32.fin d)).radius
        = F32.fin (min 10 (F32.roundFin (r + F32.roundFin (3/2 * d)))) := by
      rw [processInput_radius_out keys s _ hw hu hs, hr, zoomOut_value r d hrb hd]
    refine ⟨e1, ?_, ?_⟩
    · rw [processInput_radius_out keys s _ hw hu hs, hr, zoomOut_inf]
    · intro h1 h2
      rw [e1, roundFin_of_isBinary32 h1, roundFin_of_isBinary32 h2]
  · intro hs hdn hw
    have e1 : (processInput keys s (F32.fin d)).radius
        = F32.fin (max (1/2) (F32.roundFin (r - F32.roundFin (3/2 * d)))) := by
      rw [processInput_radius_in keys s _ hs hdn hw, hr, zoomIn_value r d hrb hd]
    refine ⟨e1, ?_, ?_⟩
    · rw [processInput_radius_in keys s _ hs hdn hw, hr, zoomIn_inf]
    · intro h1 h2
      rw [e1, roundFin_of_isBinary32 h1, roundFin_of_isBinary32 h2]

theorem initialOrbit_radius : initialOrbit.radius = F32.fin 3 := F32.lit_three

/-- C1 (amended) at concrete inputs: from the initial radius 3 with `dt = 0.25`, only S held
gives `27/8 = 3.375` and only W held gives `21/8 = 2.625`. -/
theorem C1_zoom_step_rounded_witness :
    initialOrbit.radius = F32.fin 3 ∧ |(3:ℚ)| ≤ F32.maxFinite ∧ (0:ℚ) ≤ 1/4
    ∧ (processInput onlyS initialOrbit (F32.fin (1/4))).radius = F32.fin (27/8)
    ∧ (processInput onlyW initialOrbit (F32.fin (1/4))).radius = F32.fin (21/8) := by
  have hb : |(3:ℚ)| ≤ F32.maxFinite :=
    abs_le.mpr ⟨by norm_num [F32.maxFinite], by norm_num [F32.maxFinite]⟩
  have hd : (0:ℚ) ≤ 1/4 := by norm_num
  have h := C1_zoom_step_rounded onlyS initialOrbit 3 (1/4) initialOrbit_radius hb hd
  have h' := C1_zoom_step_rounded onlyW initialOrbit 3 (1/4) initialOrbit_radius hb hd
  have b1 : IsBinary32 (3/2 * (1/4)) := ⟨3, -3, by norm_num, by norm_num, by norm_num⟩
  have b2 : IsBinary32 (3 + 3/2 * (1/4)) := ⟨27, -3, by norm_num, by norm_num, by norm_num⟩
  have b3 : IsBinary32 (3 - 3/2 * (1/4)) := ⟨21, -3, by norm_num, by norm_num, by norm_num⟩
  have o := (h.1 rfl rfl (Or.inl rfl)).2.2 b1 b2
  have i := (h'.2.1 rfl rfl (Or.inl rfl)).2.2 b1 b3
  have v1 : min (10:ℚ) (3 + 3/2 * (1/4)) = 27/8 := by norm_num
  have v2 : max (1/2 : ℚ) (3 - 3/2 * (1/4)) = 21/8 := by norm_num
  rw [v1] at o
  rw [v2] at i
  exact ⟨initialOrbit_radius, hb, hd, o, i⟩

/-- C2: from the initial radius 3.0, after any finite sequence of `processInput` calls with
any key combinations and delta times `dt >= 0`, the radius is a finite number in
`[0.5, 10]`. -/
theorem C2_radius_stays_in_range (frames : List (Keys × F32))
    (h : ∀ f ∈ frames, F32.le (F32.fin 0) f.2 = true) :
    ∃ r : ℚ, (runInput frames initialOrbit).radius = F32.fin r ∧ 1/2 ≤ r ∧ r ≤ 10 :=
  runInput_inRange frames initialOrbit initialOrbit_inRange h

/-- C2 at a concrete input: zoom in for one frame of 1/60 s, then zoom out with an infinite
delta time. -/
theorem C2_radius_stays_in_range_witness :
    (∀ f ∈ [((⟨false, false, false, false, true, false, false, false, false⟩ : Keys),
              F32.fin sixtieth),
            ((⟨false, false, false, false, false, false, true, false, false⟩ : Keys),
              F32.inf false)],
        F32.le (F32.fin 0) f.2 = true)
    ∧ ∃ r : ℚ, (runInput
          [((⟨false, false, false, false, true, false, false, false, false⟩ : Keys),
              F32.fin sixtieth),
            ((⟨false, false, false, false, false, false, true, false, false⟩ : Keys),
              F32.inf false)] initialOrbit).radius = F32.fin r ∧ 1/2 ≤ r ∧ r ≤ 10 := by
  have h : ∀ f ∈ [((⟨false, false, false, false, true, false, false, false, false⟩ : Keys),
              F32.fin sixtieth),
            ((⟨false, false, false, false, false, false, true, false, false⟩ : Keys),
              F32.inf false)],
        F32.le (F32.fin 0) f.2 = true := by
    intro f hf
    simp only [List.mem_cons, List.mem_singleton, List.not_mem_nil, or_false] at hf
    rcases hf with rfl | rfl
    · norm_num [F32.le, sixtieth]
    · rfl
  exact ⟨h, C2_radius_stays_in_range _ h⟩

/-! ## Input handler: angle -/

theorem processInput_camAngle (keys : Keys) (s : OrbitState) (dt : F32) :
    (processInput keys s dt).camAngle = angleStep s.camAngle keys dt := by
  unfold processInput angleStep
  simp only [F32.lit_three_halves]

theorem runInput_camAngle (frames : List (Keys × F32)) (s : OrbitState) :
    (runInput frames s).camAngle
      = frames.foldl (fun a f => angleStep a f.1 f.2) s.camAngle := by
  induction frames generalizing s with
  | nil => rfl
  | cons f fs ih =>
    show (runInput fs (processInput f.1 s f.2)).camAngle = _
    rw [ih, processInput_camAngle]; rfl

/-- The literal `1/60` converts to `8947849 * 2^-29`, the value named `sixtieth`. -/
theorem lit_sixtieth : F32.lit (1/60) = F32.fin sixtieth := by
  have hv : ((8947849 : ℤ) : ℚ) * 2 ^ ((-6 : ℤ) - 23) = sixtieth := by
    norm_num [sixtieth]
  rw [← hv]
  refine F32.round_eval (-6) 8947849 ?_ ?_ (by norm_num) ?_ ?_ ?_
  · rw [abs_of_pos (by norm_num)]; norm_num
  · rw [abs_of_pos (by norm_num)]; norm_num
  · exact F32.roundEven_of_near 8947849 (by norm_num) (by norm_num)
  · norm_num [F32.maxFinite]
  · norm_num [F32.maxFinite]

/-- The product `1.5f * dt` for `dt` the float nearest 1/60: the exact product needs 25
significant bits and is rounded (a tie, to the even significand). -/
theorem mul_sixtieth :
    F32.mul (F32.fin (3/2)) (F32.fin sixtieth) = F32.fin (13421774 / 2 ^ 29) := by
  rw [F32.mul_fin, F32.round_eval (-6) 13421774]
  · norm_num
  · rw [abs_of_pos (by norm_num [sixtieth])]; norm_num [sixtieth]
  · rw [abs_of_pos (by norm_num [sixtieth])]; norm_num [sixtieth]
  · norm_num
  · rw [F32.roundEven_of_tie 13421773 (by norm_num [sixtieth])]; norm_num
  · norm_num [F32.maxFinite]
  · norm_num [F32.maxFinite]

/-- The sum `3 + fl(1.5 * dt)` for `dt` the float nearest 1/60 is rounded up to
`12687770 * 2^-22`. -/
theorem add_three_increment :
    F32.add (F32.fin 3) (F32.fin (13421774 / 2 ^ 29)) = F32.fin (12687770 / 2 ^ 22) := by
  rw [F32.add_fin, F32.round_eval 1 12687770]
  · norm_num
  · rw [abs_of_pos (by norm_num)]; norm_num
  · rw [abs_of_pos (by norm_num)]; norm_num
  · norm_num
  · exact F32.roundEven_of_near 12687770 (by norm_num) (by norm_num)
  · norm_num [F32.maxFinite]
  · norm_num [F32.maxFinite]

/-- The difference `3 - fl(1.5 * dt)` for `dt` the float nearest 1/60 is rounded down to
`12478054 * 2^-22`. -/
theorem sub_three_increment :
    F32.sub (F32.fin 3) (F32.fin (13421774 / 2 ^ 29)) = F32.fin (12478054 / 2 ^ 22) := by
  rw [F32.sub_fin, F32.round_eval 1 12478054]
  · norm_num
  · rw [abs_of_pos (by norm_num)]; norm_num
  · rw [abs_of_pos (by norm_num)]; norm_num
  · norm_num
  · exact F32.roundEven_of_near 12478054 (by norm_num) (by norm_num)
  · norm_num [F32.maxFinite]
  · norm_num [F32.maxFinite]

theorem radius_out_sixtieth :
    (processInput onlyS initialOrbit (F32.fin sixtieth)).radius
      = F32.fin (12687770 / 2 ^ 22) := by
  rw [processInput_radius_out onlyS initialOrbit _ rfl rfl (Or.inl rfl), initialOrbit_radius,
    mul_sixtieth, add_three_increment, F32.stdMin_fin, min_eq_right (by norm_num)]

theorem radius_in_sixtieth :
    (processInput onlyW initialOrbit (F32.fin sixtieth)).radius
      = F32.fin (12478054 / 2 ^ 22) := by
  rw [processInput_radius_in onlyW initialOrbit _ rfl rfl (Or.inl rfl), initialOrbit_radius,
    mul_sixtieth, sub_three_increment, F32.stdMax_fin, max_eq_right (by norm_num)]

/-- C1 as stated fails.  From the initial radius 3 with `dt` the float nearest 1/60, only S
held gives `12687770 / 2^22`, not `min(10, 3 + 1.5 * dt)`; only W held gives
`12478054 / 2^22`, not `max(0.5, 3 - 1.5 * dt)`: the product and the sum are rounded. -/
theorem C1_exact_formula_fails :
    ((processInput onlyS initialOrbit (F32.fin sixtieth)).radius
        = F32.fin (12687770 / 2 ^ 22)
      ∧ (processInput onlyS initialOrbit (F32.fin sixtieth)).radius
        ≠ F32.fin (min 10 (3 + 3/2 * sixtieth)))
    ∧ ((processInput onlyW initialOrbit (F32.fin sixtieth)).radius
        = F32.fin (12478054 / 2 ^ 22)
      ∧ (processInput onlyW initialOrbit (F32.fin sixtieth)).radius
        ≠ F32.fin (max (1/2) (3 - 3/2 * sixtieth))) := by
  have v1 : min (10:ℚ) (3 + 3/2 * sixtieth) = 3 + 26843547 / 2 ^ 30 := by
    rw [min_eq_right (by norm_num [sixtieth])]; norm_num [sixtieth]
  have v2 : max (1/2 : ℚ) (3 - 3/2 * sixtieth) = 3 - 26843547 / 2 ^ 30 := by
    rw [max_eq_right (by norm_num [sixtieth])]; norm_num [sixtieth]
  refine ⟨⟨radius_out_sixtieth, ?_⟩, ⟨radius_in_sixtieth, ?_⟩⟩
  · rw [radius_out_sixtieth, v1]
    intro h
    have := F32.fin.inj h
    norm_num at this
  · rw [radius_in_sixtieth, v2]
    intro h
    have := F32.fin.inj h
    norm_num at this

/-- Adding `1.5 * 2^-25` to 1.5 in binary32 gives 1.5 again: the increment is below half a
unit in the last place. -/
theorem add_absorbed :
    F32.add (F32.fin (3/2)) (F32.fin (3 / 2 ^ 26)) = F32.fin (3/2) := by
  rw [F32.add_fin, F32.round_eval 0 12582912]
  · norm_num
  · rw [abs_of_pos (by norm_num)]; norm_num
  · rw [abs_of_pos (by norm_num)]; norm_num
  · norm_num
  · exact F32.roundEven_of_near 12582912 (by norm_num) (by norm_num)
  · norm_num [F32.maxFinite]
  · norm_num [F32.maxFinite]

theorem mul_three_halves_one : F32.mul (F32.fin (3/2)) (F32.fin 1) = F32.fin (3/2) := by
  rw [F32.mul_fin, mul_one]
  exact F32.lit_three_halves

theorem add_zero_fin_rep (q : ℚ) (h : F32.round q = F32.fin q) :
    F32.add (F32.fin 0) (F32.fin q) = F32.fin q := by
  rw [F32.add_fin, zero_add, h]

theorem mul_small_dt :
    F32.mul (F32.fin (3/2)) (F32.fin (1 / 2 ^ 25)) = F32.fin (3 / 2 ^ 26) := by
  have hq : (3/2 : ℚ) * (1 / 2 ^ 25) = 3 / 2 ^ 26 := by norm_num
  rw [F32.mul_fin, hq]
  exact F32.round_of_rep (3 / 2 ^ 26) 3 (-26) (by norm_num) (by norm_num) (by norm_num)
    (by norm_num [F32.maxFinite]) (by norm_num [F32.maxFinite])

theorem angleStep_onlyD (a dt : F32) :
    angleStep a onlyD dt = F32.add a (F32.mul (F32.fin (3/2)) dt) := rfl

theorem initialOrbit_camAngle : initialOrbit.camAngle = F32.fin 0 := F32.lit_zero

theorem runInput_onlyD_one (s : OrbitState) (dt : F32) :
    (runInput [(onlyD, dt)] s).camAngle
      = F32.add s.camAngle (F32.mul (F32.fin (3/2)) dt) := by
  rw [runInput_camAngle]; rfl

theorem runInput_onlyD_two (s : OrbitState) (dt1 dt2 : F32) :
    (runInput [(onlyD, dt1), (onlyD, dt2)] s).camAngle
      = F32.add (F32.add s.camAngle (F32.mul (F32.fin (3/2)) dt1))
          (F32.mul (F32.fin (3/2)) dt2) := by
  rw [runInput_camAngle]; rfl

theorem angle_after_sixtieth :
    (runInput [(onlyD, F32.fin sixtieth)] initialOrbit).camAngle
      = F32.fin (13421774 / 2 ^ 29) := by
  rw [runInput_onlyD_one, initialOrbit_camAngle, mul_sixtieth]
  exact add_zero_fin_rep _
    (F32.round_of_rep (13421774 / 2 ^ 29) 13421774 (-29) (by norm_num) (by norm_num)
      (by norm_num) (by norm_num [F32.maxFinite]) (by norm_num [F32.maxFinite]))

theorem angle_after_absorbed :
    (runInput [(onlyD, F32.fin 1), (onlyD, F32.fin (1 / 2 ^ 25))] initialOrbit).camAngle
      = F32.fin (3/2) := by
  rw [runInput_onlyD_two, initialOrbit_camAngle, mul_three_halves_one,
    add_zero_fin_rep _ F32.lit_three_halves, mul_small_dt, add_absorbed]

theorem exactAngle_sixtieth : exactAngle 0 [(onlyD, sixtieth)] = 26843547 / 2 ^ 30 := by
  norm_num [exactAngle, exactIncrement, onlyD, sixtieth]

theorem exactAngle_absorbed :
    exactAngle 0 [(onlyD, 1), (onlyD, 1 / 2 ^ 25)] = 3/2 + 3 / 2 ^ 26 := by
  norm_num [exactAngle, exactIncrement, onlyD]

theorem runInput_onlyA_one (s : OrbitState) (dt : F32) :
    (runInput [(onlyA, dt)] s).camAngle
      = F32.sub s.camAngle (F32.mul (F32.fin (3/2)) dt) := by
  rw [runInput_camAngle]; rfl

theorem angle_after_sixtieth_left :
    (runInput [(onlyA, F32.fin sixtieth)] initialOrbit).camAngle
      = F32.fin (-(13421774 / 2 ^ 29)) := by
  rw [runInput_onlyA_one, initialOrbit_camAngle, mul_sixtieth, F32.sub_fin, zero_sub]
  exact F32.round_of_rep (-(13421774 / 2 ^ 29)) (-13421774) (-29) (by norm_num) (by norm_num)
    (by norm_num) (by norm_num [F32.maxFinite]) (by norm_num [F32.maxFinite])

theorem exactAngle_sixtieth_left :
    exactAngle 0 [(onlyA, sixtieth)] = -(26843547 / 2 ^ 30) := by
  norm_num [exactAngle, exactIncrement, onlyA, sixtieth]

/-- C3 as stated fails.  From the initial camera, one frame with D held and `dt` the float
nearest 1/60 leaves the angle at `13421774 / 2^29`, not at the exact sum `1.5 * dt`; and two
frames with D held, `dt = 1` then `dt = 2^-25`, leave the angle at 1.5, the second increment
being absorbed, not at the exact sum `1.5 + 1.5 * 2^-25`; and one frame with A held and
`dt` the float nearest 1/60 leaves the angle at `-13421774 / 2^29`, not at `-1.5 * dt`. -/
theorem C3_exact_sum_fails :
    ((runInput [(onlyD, F32.fin sixtieth)] initialOrbit).camAngle
        = F32.fin (13421774 / 2 ^ 29)
      ∧ (runInput [(onlyD, F32.fin sixtieth)] initialOrbit).camAngle
        ≠ F32.fin (exactAngle 0 [(onlyD, sixtieth)]))
    ∧ ((runInput [(onlyD, F32.fin 1), (onlyD, F32.fin (1 / 2 ^ 25))] initialOrbit).camAngle
        = F32.fin (3/2)
      ∧ (runInput [(onlyD, F32.fin 1), (onlyD, F32.fin (1 / 2 ^ 25))] initialOrbit).camAngle
        ≠ F32.fin (exactAngle 0 [(onlyD, 1), (onlyD, 1 / 2 ^ 25)]))
    ∧ ((runInput [(onlyA, F32.fin sixtieth)] initialOrbit).camAngle
        = F32.fin (-(13421774 / 2 ^ 29))
      ∧ (runInput [(onlyA, F32.fin sixtieth)] initialOrbit).camAngle
        ≠ F32.fin (exactAngle 0 [(onlyA, sixtieth)])) := by
  refine ⟨⟨angle_after_sixtieth, ?_⟩, ⟨angle_after_absorbed, ?_⟩,
    ⟨angle_after_sixtieth_left, ?_⟩⟩
  · rw [angle_after_sixtieth, exactAngle_sixtieth]
    intro h
    have := F32.fin.inj h
    norm_num at this
  · rw [angle_after_absorbed, exactAngle_absorbed]
    intro h
    have := F32.fin.inj h
    norm_num at this
  · rw [angle_after_sixtieth_left, exactAngle_sixtieth_left]
    intro h
    have := F32.fin.inj h
    norm_num at this

open F32 in
/-- A result whose rounded magnitude is within range is the finite rounded value. -/
theorem round_of_abs_le (q : ℚ) (h : |roundFin q| ≤ maxFinite) :
    F32.round q = fin (roundFin q) := by
  have h' := abs_le.mp h
  unfold F32.round
  rw [if_neg (not_lt.mpr h'.2), if_neg (not_lt.mpr h'.1)]

open F32 in
theorem abs_roundFin_le_nat {q : ℚ} (m : ℤ) (j : ℕ) (hm : m < 2 ^ 24)
    (h : |q| ≤ (m:ℚ) * 2 ^ j) : |roundFin q| ≤ (m:ℚ) * 2 ^ j := by
  have e : (m:ℚ) * (2:ℚ) ^ (j:ℤ) = (m:ℚ) * 2 ^ j := by rw [zpow_natCast]
  rw [← e] at h ⊢
  exact abs_roundFin_le_rep m j hm (by omega) h

open F32 in
/-- One frame of the angle on finite data: the binary32 operations of `processInput` compute
`roundedAngleStep`. -/
theorem angleStep_fin (a d : ℚ) (keys : Keys) (ha : |a| ≤ 2 ^ 100) (hd : |d| ≤ 2 ^ 100) :
    angleStep (fin a) keys (fin d) = fin (roundedAngleStep a keys d) := by
  have hmax3 : ((3:ℤ):ℚ) * 2 ^ 99 ≤ maxFinite := by norm_num [maxFinite]
  have hmax5 : ((5:ℤ):ℚ) * 2 ^ 99 ≤ maxFinite := by norm_num [maxFinite]
  have hmax8 : ((1:ℤ):ℚ) * 2 ^ 102 ≤ maxFinite := by norm_num [maxFinite]
  have hX : |roundFin (3/2 * d)| ≤ ((3:ℤ):ℚ) * 2 ^ 99 := by
    refine abs_roundFin_le_nat 3 99 (by norm_num) ?_
    rw [abs_mul, abs_of_pos (by norm_num : (0:ℚ) < 3/2)]
    push_cast
    linarith
  have hmul : mul (fin (3/2)) (fin d) = fin (roundFin (3/2 * d)) := by
    rw [mul_fin]; exact round_of_abs_le _ (le_trans hX hmax3)
  have hsub : |roundFin (a - roundFin (3/2 * d))| ≤ ((5:ℤ):ℚ) * 2 ^ 99 := by
    refine abs_roundFin_le_nat 5 99 (by norm_num) ?_
    have := abs_sub a (roundFin (3/2 * d))
    push_cast at hX ⊢
    linarith
  have hsubv : sub (fin a) (fin (roundFin (3/2 * d)))
      = fin (roundFin (a - roundFin (3/2 * d))) := by
    rw [sub_fin]; exact round_of_abs_le _ (le_trans hsub hmax5)
  have hadd : ∀ b : ℚ, |b| ≤ ((5:ℤ):ℚ) * 2 ^ 99 →
      add (fin b) (fin (roundFin (3/2 * d))) = fin (roundFin (b + roundFin (3/2 * d))) := by
    intro b hb
    rw [add_fin]
    refine round_of_abs_le _ (le_trans ?_ hmax8)
    refine abs_roundFin_le_nat 1 102 (by norm_num) ?_
    have := abs_add b (roundFin (3/2 * d))
    push_cast at hX hb ⊢
    linarith
  have ha5 : |a| ≤ ((5:ℤ):ℚ) * 2 ^ 99 := by push_cast; linarith
  unfold angleStep roundedAngleStep
  by_cases hA : (keys.keyA || keys.keyLeft) = true <;>
    by_cases hD : (keys.keyD || keys.keyRight) = true <;>
    simp only [hA, hD, if_true, if_false, Bool.false_eq_true, hmul, hsubv]
  · exact hadd _ hsub
  · exact hadd _ ha5

theorem foldl_angleStep_fin (frames : List (Keys × ℚ)) (a0 : ℚ)
    (hb : angleRunBounded a0 frames) :
    (frames.map (fun f => (f.1, F32.fin f.2))).foldl (fun a f => angleStep a f.1 f.2)
        (F32.fin a0)
      = F32.fin (roundedAngle a0 frames) := by
  induction frames generalizing a0 with
  | nil => rfl
  | cons f fs ih =>
    obtain ⟨h1, h2, h3⟩ := hb
    rw [List.map_cons, List.foldl_cons, angleStep_fin a0 f.2 f.1 h1 h2, ih _ h3]
    rfl

/-- C3, amended: after any sequence of `processInput` calls (finite delta times, the angle
staying within `2^100` in magnitude) the camera angle is the initial angle with the
increments applied in frame order and rounded to binary32 at every step: in each frame
`inc = fl(1.5 * dt)`, the angle becomes `fl(angle - inc)` when A or Left is held and then
`fl(angle + inc)` when D or Right is held, with `-`, `+`, `*` those of the rationals and
`fl` rounding to the nearest binary32 value, which is on the binary32 grid and differs from
its argument by at most `|q| / 2^24 + 2^-150`.  Nothing wraps or clamps the angle. -/
theorem C3_angle_accumulates_rounded (frames : List (Keys × ℚ)) (a0 : ℚ) (s : OrbitState)
    (hs : s.camAngle = F32.fin a0) (hb : angleRunBounded a0 frames) :
    (runInput (frames.map (fun f => (f.1, F32.fin f.2))) s).camAngle
        = F32.fin (roundedAngle a0 frames)
    ∧ (∀ q : ℚ, IsBinary32 (F32.roundFin q)
        ∧ |F32.roundFin q - q| ≤ |q| / 2 ^ 24 + 1 / 2 ^ 150) := by
  refine ⟨?_, fun q => ⟨roundFin_isBinary32 q, F32.roundFin_error q⟩⟩
  rw [runInput_camAngle, hs]
  exact foldl_angleStep_fin frames a0 hb

theorem roundedAngleStep_onlyA (a d : ℚ) :
    roundedAngleStep a onlyA d = F32.roundFin (a - F32.roundFin (3/2 * d)) := rfl

theorem roundedAngleStep_onlyD (a d : ℚ) :
    roundedAngleStep a onlyD d = F32.roundFin (a + F32.roundFin (3/2 * d)) := rfl

theorem roundedAngleStep_left : roundedAngleStep 0 onlyA 1 = -(3/2) := by
  have x1 : F32.roundFin (3/2 * 1) = 3/2 := by
    rw [mul_one]
    exact F32.roundFin_of_rep (3/2) 3 (-1) (by norm_num) (by norm_num) (by norm_num)
  have e : (0:ℚ) - 3/2 = -(3/2) := by norm_num
  rw [roundedAngleStep_onlyA, x1, e]
  exact F32.roundFin_of_rep (-(3/2)) (-3) (-1) (by norm_num) (by norm_num) (by norm_num)

theorem roundedAngleStep_right : roundedAngleStep (-(3/2)) onlyD (1/4) = -(9/8) := by
  have e0 : (3/2 : ℚ) * (1/4) = 3/8 := by norm_num
  have x1 : F32.roundFin (3/8) = 3/8 :=
    F32.roundFin_of_rep (3/8) 3 (-3) (by norm_num) (by norm_num) (by norm_num)
  have e : (-(3/2) : ℚ) + 3/8 = -(9/8) := by norm_num
  rw [roundedAngleStep_onlyD, e0, x1, e]
  exact F32.roundFin_of_rep (-(9/8)) (-9) (-3) (by norm_num) (by norm_num) (by norm_num)

theorem roundedAngle_left_right :
    roundedAngle 0 [(onlyA, 1), (onlyD, 1/4)] = -(9/8) := by
  show roundedAngleStep (roundedAngleStep 0 onlyA 1) onlyD (1/4) = -(9/8)
  rw [roundedAngleStep_left, roundedAngleStep_right]

/-- C3 (amended) at a concrete run from the initial camera: A held for `dt = 1` takes the
angle to `-1.5`, then D held for `dt = 0.25` takes it to `-1.125`. -/
theorem C3_angle_accumulates_rounded_witness :
    initialOrbit.camAngle = F32.fin 0
    ∧ angleRunBounded 0 [(onlyA, 1), (onlyD, 1/4)]
    ∧ (runInput [(onlyA, F32.fin 1), (onlyD, F32.fin (1/4))] initialOrbit).camAngle
        = F32.fin (-(9/8)) := by
  have hb : angleRunBounded 0 [(onlyA, 1), (onlyD, 1/4)] := by
    refine ⟨abs_le.mpr ⟨by norm_num, by norm_num⟩, abs_le.mpr ⟨by norm_num, by norm_num⟩, ?_⟩
    rw [roundedAngleStep_left]
    exact ⟨abs_le.mpr ⟨by norm_num, by norm_num⟩, abs_le.mpr ⟨by norm_num, by norm_num⟩,
      trivial⟩
  have h := (C3_angle_accumulates_rounded [(onlyA, 1), (onlyD, 1/4)] 0 initialOrbit
    initialOrbit_camAngle hb).1
  rw [roundedAngle_left_right] at h
  exact ⟨initialOrbit_camAngle, hb, h⟩

/-! ## Camera position -/

/-- C5: after the loops of `createCheckerTexture`, for every pixel `(x, y)` of the 4x4
image the three bytes at offset `(y*4 + x)*3` are `(255, 255, 255)` when `x + y` is even and
`(50, 50, 200)` when it is odd; pixel `(0,0)` is `(255,255,255)`, pixel `(1,0)` is
`(50,50,200)`; the buffer has 48 bytes and all of them are written. -/
theorem C5_checker_pixels :
    (∀ x y : Fin 4, pixelAt createCheckerTexture x.val y.val
        = some (if (x.val + y.val) % 2 = 0 then (255, 255, 255) else (50, 50, 200)))
    ∧ pixelAt createCheckerTexture 0 0 = some (255, 255, 255)
    ∧ pixelAt createCheckerTexture 1 0 = some (50, 50, 200)
    ∧ createCheckerTexture.length = 48
    ∧ (∀ c ∈ createCheckerTexture, c ≠ none) := by
  refine ⟨?_, ?_, ?_, ?_, ?_⟩ <;> decide

/-! ## Mesh -/

theorem drawCalls_frameCalls (libm : Libm) (now camAngle radius : F32) :
    drawCalls (frameCalls libm now camAngle radius)
      = [(DrawMode.triangles, 18), (DrawMode.lines, 16)] := by
  simp [drawCalls, frameCalls, sizeofTriIndices, sizeofLineIndices, sizeofUnsignedInt,
    triIndices, lineIndices]

/-- C8: `vertices` holds 5 vertices of 8 floats, `sizeof(vertices)` is `5 * 8 * 4 = 160`
bytes and that is the size uploaded; `triIndices` has 18 entries (6 triangles),
`lineIndices` has 16 entries (8 segments), and 18 and 16 are the counts of the two draw
calls of every frame, triangles first. -/
theorem C8_buffer_sizes (libm : Libm) (now camAngle radius : F32) :
    vertices.length = 5 * floatsPerVertex
    ∧ floatsPerVertex = 8
    ∧ sizeofVertices = 5 * 8 * 4
    ∧ sizeofVertices = 160
    ∧ meshUpload = [GLCall.bufferData Buffer.vbo 160, GLCall.bufferData Buffer.eboTri 72,
        GLCall.bufferData Buffer.eboLine 64]
    ∧ triIndices.length = 18 ∧ triIndices.length = 6 * 3
    ∧ lineIndices.length = 16 ∧ lineIndices.length = 8 * 2
    ∧ drawCalls (frameCalls libm now camAngle radius)
        = [(DrawMode.triangles, triIndices.length), (DrawMode.lines, lineIndices.length)] :=
  ⟨rfl, rfl, rfl, rfl, rfl, rfl, rfl, rfl, rfl, drawCalls_frameCalls libm now camAngle radius⟩

/-- C9: every entry of `triIndices` and of `lineIndices` is below 5, the number of vertices,
so the vertex it selects lies inside `vertices`. -/
theorem C9_indices_in_bounds :
    vertices.length / floatsPerVertex = 5
    ∧ (∀ i ∈ triIndices, i < 5 ∧ (vertexAt i).isSome = true)
    ∧ (∀ i ∈ lineIndices, i < 5 ∧ (vertexAt i).isSome = true) := by
  refine ⟨rfl, ?_, ?_⟩ <;> decide

/-! ## Render loop -/

theorem processInput_noKeys (s : OrbitState) (dt : F32) : processInput noKeys s dt = s := rfl

theorem processInput_escape (keys : Keys) (s : OrbitState) (dt : F32)
    (h : keys.keyEscape = true) : (processInput keys s dt).shouldClose = true := by
  simp [processInput, h]

theorem loopStep_open (libm : Libm) (inp : FrameInput) (s : LoopState)
    (hrun : s.phase = Phase.running) (hopen : s.shouldClose = false) :
    loopStep libm inp s = loopBody libm inp s := by
  simp [loopStep, hrun, hopen]

theorem loopStep_flagged (libm : Libm) (inp : FrameInput) (s : LoopState)
    (hrun : s.phase = Phase.running) (hflag : s.shouldClose = true) :
    loopStep libm inp s = { s with phase := Phase.closing, calls := s.calls ++ teardownCalls } := by
  simp [loopStep, hrun, hflag]

theorem loopStep_closing (libm : Libm) (inp : FrameInput) (s : LoopState)
    (h : s.phase = Phase.closing) : loopStep libm inp s = s := by
  simp [loopStep, h]

theorem runLoop_closing (libm : Libm) (inps : List FrameInput) (s : LoopState)
    (h : s.phase = Phase.closing) : runLoop libm inps s = s := by
  induction inps with
  | nil => rfl
  | cons inp rest ih =>
    show runLoop libm rest (loopStep libm inp s) = s
    rw [loopStep_closing libm inp s h, ih]

theorem drawCalls_append (a b : List GLCall) :
    drawCalls (a ++ b) = drawCalls a ++ drawCalls b := by
  simp [drawCalls, List.filterMap_append]

theorem modelAngles_append (p : Program) (a b : List GLCall) :
    modelAngles p (a ++ b) = modelAngles p a ++ modelAngles p b := by
  simp [modelAngles, List.filterMap_append]

theorem drawCalls_teardownCalls : drawCalls teardownCalls = [] := by
  simp [drawCalls, teardownCalls]

theorem modelAngles_frameCalls (libm : Libm) (p : Program) (now camAngle radius : F32) :
    modelAngles p (frameCalls libm now camAngle radius) = [F32.mul now (F32.lit (4/5))] := by
  cases p <;> simp [modelAngles, frameCalls]

/-- C6: if Escape is held during the `processInput` of an iteration (the loop running, the
window not yet flagged), then after that iteration the close flag is set while the loop is
still running; the very next evaluation of the loop condition moves the loop to closing,
adding only the teardown calls; whatever inputs follow, the loop stays closing and the
draw calls of the trace are those issued up to the end of the Escape iteration; and a
closing loop never changes again. -/
theorem C6_escape_closes (libm : Libm) (inp : FrameInput) (s : LoopState)
    (hrun : s.phase = Phase.running) (hopen : s.shouldClose = false)
    (hesc : inp.keys.keyEscape = true) :
    (loopStep libm inp s).shouldClose = true
    ∧ (loopStep libm inp s).phase = Phase.running
    ∧ (∀ inp2 : FrameInput,
        (loopStep libm inp2 (loopStep libm inp s)).phase = Phase.closing
        ∧ (loopStep libm inp2 (loopStep libm inp s)).calls
            = (loopStep libm inp s).calls ++ teardownCalls)
    ∧ (∀ (inp2 : FrameInput) (rest : List FrameInput),
        (runLoop libm (inp2 :: rest) (loopStep libm inp s)).phase = Phase.closing
        ∧ drawCalls (runLoop libm (inp2 :: rest) (loopStep libm inp s)).calls
            = drawCalls (loopStep libm inp s).calls)
    ∧ (∀ (t : LoopState) (inps : List FrameInput),
        t.phase = Phase.closing → runLoop libm inps t = t) := by
  have hbody := loopStep_open libm inp s hrun hopen
  have hflag : (loopStep libm inp s).shouldClose = true := by
    rw [hbody]
    show ((processInput inp.keys _ _).shouldClose || inp.closeRequested) = true
    rw [processInput_escape _ _ _ hesc]; rfl
  have hphase : (loopStep libm inp s).phase = Phase.running := by rw [hbody]; rfl
  have hnext : ∀ inp2 : FrameInput,
      (loopStep libm inp2 (loopStep libm inp s)).phase = Phase.closing
      ∧ (loopStep libm inp2 (loopStep libm inp s)).calls
          = (loopStep libm inp s).calls ++ teardownCalls := by
    intro inp2
    rw [loopStep_flagged libm inp2 _ hphase hflag]
    exact ⟨rfl, rfl⟩
  refine ⟨hflag, hphase, hnext, ?_, fun t inps ht => runLoop_closing libm inps t ht⟩
  intro inp2 rest
  have hrest : runLoop libm (inp2 :: rest) (loopStep libm inp s)
      = loopStep libm inp2 (loopStep libm inp s) :=
    runLoop_closing libm rest _ (hnext inp2).1
  rw [hrest]
  refine ⟨(hnext inp2).1, ?_⟩
  rw [(hnext inp2).2, drawCalls_append, drawCalls_teardownCalls, List.append_nil]

/-- C6 at a concrete run: Escape held in the first iteration after start-up; the flag is set
and the next loop check closes the loop. -/
theorem C6_escape_closes_witness :
    (initialLoop (F32.fin 0)).phase = Phase.running
    ∧ (initialLoop (F32.fin 0)).shouldClose = false
    ∧ (⟨F32.fin sixtieth, onlyEscape, false⟩ : FrameInput).keys.keyEscape = true
    ∧ (loopStep taylorLibm ⟨F32.fin sixtieth, onlyEscape, false⟩
        (initialLoop (F32.fin 0))).shouldClose = true
    ∧ (loopStep taylorLibm (idleFrame (F32.fin (2 * sixtieth)))
        (loopStep taylorLibm ⟨F32.fin sixtieth, onlyEscape, false⟩
          (initialLoop (F32.fin 0)))).phase = Phase.closing :=
  ⟨rfl, rfl, rfl,
    (C6_escape_closes taylorLibm ⟨F32.fin sixtieth, onlyEscape, false⟩
      (initialLoop (F32.fin 0)) rfl rfl rfl).1,
    ((C6_escape_closes taylorLibm ⟨F32.fin sixtieth, onlyEscape, false⟩
      (initialLoop (F32.fin 0)) rfl rfl rfl).2.2.1 (idleFrame (F32.fin (2 * sixtieth)))).1⟩

theorem loopBody_idle (libm : Libm) (t : F32) (s : LoopState) :
    (loopBody libm (idleFrame t) s).phase = Phase.running
    ∧ (loopBody libm (idleFrame t) s).shouldClose = s.shouldClose
    ∧ (loopBody libm (idleFrame t) s).camAngle = s.camAngle
    ∧ (loopBody libm (idleFrame t) s).radius = s.radius
    ∧ (loopBody libm (idleFrame t) s).calls
        = s.calls ++ frameCalls libm t s.camAngle s.radius := by
  refine ⟨rfl, ?_, rfl, rfl, rfl⟩
  show (s.shouldClose || false) = s.shouldClose
  simp

theorem runLoop_idle (libm : Libm) (nows : List F32) (s : LoopState)
    (hrun : s.phase = Phase.running) (hopen : s.shouldClose = false) :
    (runLoop libm (nows.map idleFrame) s).phase = Phase.running
    ∧ (runLoop libm (nows.map idleFrame) s).shouldClose = false
    ∧ (runLoop libm (nows.map idleFrame) s).camAngle = s.camAngle
    ∧ (runLoop libm (nows.map idleFrame) s).radius = s.radius
    ∧ (runLoop libm (nows.map idleFrame) s).calls
        = s.calls ++ nows.flatMap (fun t => frameCalls libm t s.camAngle s.radius) := by
  induction nows generalizing s with
  | nil => exact ⟨hrun, hopen, rfl, rfl, by simp [runLoop]⟩
  | cons t rest ih =>
    have hb := loopBody_idle libm t s
    have hstep : runLoop libm ((t :: rest).map idleFrame) s
        = runLoop libm (rest.map idleFrame) (loopBody libm (idleFrame t) s) := by
      show runLoop libm (rest.map idleFrame) (loopStep libm (idleFrame t) s) = _
      rw [loopStep_open libm _ s hrun hopen]
    obtain ⟨h1, h2, h3, h4, h5⟩ := ih (loopBody libm (idleFrame t) s) hb.1
      (by rw [hb.2.1]; exact hopen)
    rw [hstep]
    refine ⟨h1, h2, by rw [h3, hb.2.2.1], by rw [h4, hb.2.2.2.1], ?_⟩
    rw [h5, hb.2.2.1, hb.2.2.2.1, hb.2.2.2.2, List.flatMap_cons, List.append_assoc]

theorem drawCalls_frames (libm : Libm) (nows : List F32) (camAngle radius : F32) :
    drawCalls (nows.flatMap (fun t => frameCalls libm t camAngle radius))
      = (List.replicate nows.length
          [(DrawMode.triangles, 18), (DrawMode.lines, 16)]).flatten := by
  induction nows with
  | nil => rfl
  | cons t rest ih =>
    rw [List.flatMap_cons, drawCalls_append, drawCalls_frameCalls, ih, List.length_cons,
      List.replicate_succ, List.flatten_cons]

theorem modelAngles_frames (libm : Libm) (p : Program) (nows : List F32)
    (camAngle radius : F32) :
    modelAngles p (nows.flatMap (fun t => frameCalls libm t camAngle radius))
      = nows.map (fun t => F32.mul t (F32.lit (4/5))) := by
  induction nows with
  | nil => rfl
  | cons t rest ih =>
    rw [List.flatMap_cons, modelAngles_append, modelAngles_frameCalls, ih]
    rfl

theorem count_triangles (n : Nat) :
    ((List.replicate n [(DrawMode.triangles, 18), (DrawMode.lines, 16)]).flatten).count
      (DrawMode.triangles, 18) = n := by
  induction n with
  | zero => rfl
  | succ k ih =>
    rw [List.replicate_succ, List.flatten_cons, List.count_append, ih]
    simp [List.count_cons]
    omega

theorem count_lines (n : Nat) :
    ((List.replicate n [(DrawMode.triangles, 18), (DrawMode.lines, 16)]).flatten).count
      (DrawMode.lines, 16) = n := by
  induction n with
  | zero => rfl
  | succ k ih =>
    rw [List.replicate_succ, List.flatten_cons, List.count_append, ih]
    simp [List.count_cons]
    omega

theorem length_pairs (n : Nat) :
    ((List.replicate n [(DrawMode.triangles, 18), (DrawMode.lines, 16)]).flatten).length
      = 2 * n := by
  induction n with
  | zero => rfl
  | succ k ih =>
    rw [List.replicate_succ, List.flatten_cons, List.length_append, ih]
    simp only [List.length_cons, List.length_nil]
    omega

/-- The literal `0.8f` is `13421773 * 2^-24`. -/
theorem lit_four_fifths : F32.lit (4/5) = F32.fin (13421773 / 2 ^ 24) := by
  have hv : ((13421773 : ℤ) : ℚ) * 2 ^ ((-1 : ℤ) - 23) = 13421773 / 2 ^ 24 := by norm_num
  rw [← hv]
  refine F32.round_eval (-1) 13421773 ?_ ?_ (by norm_num) ?_ ?_ ?_
  · rw [abs_of_pos (by norm_num)]; norm_num
  · rw [abs_of_pos (by norm_num)]; norm_num
  · exact F32.roundEven_of_near 13421773 (by norm_num) (by norm_num)
  · norm_num [F32.maxFinite]
  · norm_num [F32.maxFinite]

/-- The product `now * 0.8f` on a finite clock reading. -/
theorem mul_lit_four_fifths (t : ℚ) (ht : |t| ≤ 2 ^ 100) :
    F32.mul (F32.fin t) (F32.lit (4/5))
      = F32.fin (F32.roundFin (t * (13421773 / 2 ^ 24))) := by
  rw [lit_four_fifths, F32.mul_fin]
  refine round_of_abs_le _ (le_trans (abs_roundFin_le_pow_hundred ?_) pow_hundred_le_maxFinite)
  rw [abs_mul, abs_of_pos (by norm_num : (0:ℚ) < 13421773 / 2 ^ 24)]
  have h0 := abs_nonneg t
  nlinarith

/-- The product `1.0f * 0.8f` is `0.8f`. -/
theorem mul_one_four_fifths :
    F32.mul (F32.fin 1) (F32.lit (4/5)) = F32.fin (13421773 / 2 ^ 24) := by
  rw [mul_lit_four_fifths 1 (abs_le.mpr ⟨by norm_num, by norm_num⟩), one_mul]
  exact congrArg F32.fin
    (F32.roundFin_of_rep (13421773 / 2 ^ 24) 13421773 (-24) (by norm_num) (by norm_num)
      (by norm_num))

theorem map_mul_fin (ts : List ℚ) (h : ∀ t ∈ ts, |t| ≤ 2 ^ 100) :
    (ts.map F32.fin).map (fun t => F32.mul t (F32.lit (4/5)))
      = ts.map (fun t => F32.fin (F32.roundFin (t * (13421773 / 2 ^ 24)))) := by
  rw [List.map_map]
  refine List.map_congr_left ?_
  intro t ht
  exact mul_lit_four_fifths t (h t ht)

theorem sixtyReadings_last : (sixtyReadings 0).getLast? = some (F32.fin 1) := by
  have e : (0:ℚ) + (((59:ℕ):ℚ) + 1) / 60 = 1 := by norm_num
  unfold sixtyReadings
  rw [List.getLast?_map, List.getLast?_range, if_neg (by norm_num)]
  show some (F32.round ((0:ℚ) + (((59:ℕ):ℚ) + 1) / 60)) = _
  rw [e]
  exact congrArg some F32.lit_one

theorem sixtyReadings_length : (sixtyReadings 0).length = 60 := by
  unfold sixtyReadings; rw [List.length_map, List.length_range]

theorem modelAngles_idle (libm : Libm) (p : Program) (t0 : F32) (nows : List F32) :
    modelAngles p (runLoop libm (nows.map idleFrame) (initialLoop t0)).calls
      = nows.map (fun t => F32.mul t (F32.lit (4/5))) := by
  obtain ⟨-, -, -, -, h5⟩ := runLoop_idle libm nows (initialLoop t0) rfl rfl
  rw [h5]
  show modelAngles p ([] ++ _) = _
  rw [List.nil_append, modelAngles_frames]

/-- C7 as stated fails in its angle part.  In the run of sixty idle iterations with clock
readings 1/60 s apart from 0, the last reading is 1.0 and the model-rotation angle uploaded
in that frame is `13421773 / 2^24` (the float `0.8f`), not `1.0 * 0.8 = 4/5`, which is not a
binary32 value. -/
theorem C7_angle_not_exact :
    (sixtyReadings 0).length = 60
    ∧ (sixtyReadings 0).getLast? = some (F32.fin 1)
    ∧ (modelAngles Program.texProgram
        (runLoop taylorLibm ((sixtyReadings 0).map idleFrame)
          (initialLoop (F32.fin 0))).calls).getLast? = some (F32.fin (13421773 / 2 ^ 24))
    ∧ F32.fin (13421773 / 2 ^ 24) ≠ F32.fin (1 * (4/5)) := by
  refine ⟨sixtyReadings_length, sixtyReadings_last, ?_, ?_⟩
  · rw [modelAngles_idle, List.getLast?_map, sixtyReadings_last, Option.map_some',
      mul_one_four_fifths]
  · intro h
    have := F32.fin.inj h
    norm_num at this

/-- C7, amended: sixty loop iterations with no key held and no close request, for any sixty
clock readings (in particular readings 1/60 s apart), leave the camera angle at 0 and the
radius at 3.0; the model-rotation angle uploaded in each frame, to both programs, is the
binary32 product `now * 0.8f`, that is `fl(now * 13421773 / 2^24)` for a finite reading
`now` of magnitude at most `2^100`, `0.8f` being `13421773 / 2^24` and `fl` rounding to the
nearest binary32 value (on the grid, within `|q| / 2^24 + 2^-150` of `q`); and the trace has exactly two
draw calls per frame, triangles (18 indices) then lines (16 indices), sixty of each. -/
theorem C7_idle_second_rounded (libm : Libm) (t0 : F32) (nows : List F32)
    (hlen : nows.length = 60) :
    (runLoop libm (nows.map idleFrame) (initialLoop t0)).camAngle = F32.fin 0
    ∧ (runLoop libm (nows.map idleFrame) (initialLoop t0)).radius = F32.fin 3
    ∧ (runLoop libm (nows.map idleFrame) (initialLoop t0)).phase = Phase.running
    ∧ (∀ p : Program,
        modelAngles p (runLoop libm (nows.map idleFrame) (initialLoop t0)).calls
          = nows.map (fun t => F32.mul t (F32.lit (4/5))))
    ∧ F32.lit (4/5) = F32.fin (13421773 / 2 ^ 24)
    ∧ (∀ (p : Program) (ts : List ℚ), nows = ts.map F32.fin → (∀ t ∈ ts, |t| ≤ 2 ^ 100) →
        modelAngles p (runLoop libm (nows.map idleFrame) (initialLoop t0)).calls
          = ts.map (fun t => F32.fin (F32.roundFin (t * (13421773 / 2 ^ 24)))))
    ∧ (∀ q : ℚ, IsBinary32 (F32.roundFin q)
        ∧ |F32.roundFin q - q| ≤ |q| / 2 ^ 24 + 1 / 2 ^ 150)
    ∧ drawCalls (runLoop libm (nows.map idleFrame) (initialLoop t0)).calls
        = (List.replicate 60 [(DrawMode.triangles, 18), (DrawMode.lines, 16)]).flatten
    ∧ (drawCalls (runLoop libm (nows.map idleFrame) (initialLoop t0)).calls).count
        (DrawMode.triangles, 18) = 60
    ∧ (drawCalls (runLoop libm (nows.map idleFrame) (initialLoop t0)).calls).count
        (DrawMode.lines, 16) = 60
    ∧ (drawCalls (runLoop libm (nows.map idleFrame) (initialLoop t0)).calls).length
        = 2 * 60 := by
  obtain ⟨h1, -, h3, h4, h5⟩ := runLoop_idle libm nows (initialLoop t0) rfl rfl
  have hd : drawCalls (runLoop libm (nows.map idleFrame) (initialLoop t0)).calls
      = (List.replicate 60 [(DrawMode.triangles, 18), (DrawMode.lines, 16)]).flatten := by
    rw [h5]
    show drawCalls ([] ++ _) = _
    rw [List.nil_append, drawCalls_frames, hlen]
  refine ⟨?_, ?_, h1, ?_, lit_four_fifths, ?_,
    fun q => ⟨roundFin_isBinary32 q, F32.roundFin_error q⟩, hd, ?_, ?_, ?_⟩
  · rw [h3]; exact F32.lit_zero
  · rw [h4]; exact F32.lit_three
  · intro p
    exact modelAngles_idle libm p t0 nows
  · intro p ts hts hb
    rw [modelAngles_idle, hts]
    exact map_mul_fin ts hb
  · rw [hd, count_triangles]
  · rw [hd, count_lines]
  · rw [hd, length_pairs]

/-- C7 (amended) at a concrete clock: sixty readings 1/60 s apart starting from 0; the camera
stays at angle 0 and radius 3, there are sixty triangle draws, and the angle uploaded in the
last frame, whose reading is 1.0, is `13421773 / 2^24`. -/
theorem C7_idle_second_rounded_witness :
    (sixtyReadings 0).length = 60
    ∧ (runLoop taylorLibm ((sixtyReadings 0).map idleFrame)
        (initialLoop (F32.fin 0))).camAngle = F32.fin 0
    ∧ (runLoop taylorLibm ((sixtyReadings 0).map idleFrame)
        (initialLoop (F32.fin 0))).radius = F32.fin 3
    ∧ (drawCalls (runLoop taylorLibm ((sixtyReadings 0).map idleFrame)
        (initialLoop (F32.fin 0))).calls).count (DrawMode.triangles, 18) = 60
    ∧ (modelAngles Program.lineProgram
        (runLoop taylorLibm ((sixtyReadings 0).map idleFrame)
          (initialLoop (F32.fin 0))).calls).getLast? = some (F32.fin (13421773 / 2 ^ 24)) := by
  have h := C7_idle_second_rounded taylorLibm (F32.fin 0) (sixtyReadings 0)
    sixtyReadings_length
  refine ⟨sixtyReadings_length, h.1, h.2.1, h.2.2.2.2.2.2.2.2.1, ?_⟩
  rw [h.2.2.2.1 Program.lineProgram, List.getLast?_map, sixtyReadings_last, Option.map_some',
    mul_one_four_fifths]

/-! ## Look-at view -/

end Pyramid
